import Mathlib

/-!
Verification of the PySpike ISI-distance module (`pyspike/isi_distance.py`).

The module under `src/` is a thin layer: dispatchers (`isi_profile`,
`isi_distance`), the bivariate wrappers (`isi_profile_bi`, `isi_distance_bi`)
and the multivariate wrappers (`isi_profile_multi`, `isi_distance_multi`,
`isi_distance_matrix`).  The collaborators it calls — the `SpikeTrain` and
`PieceWiseConstFunc` value types, the `_generic_*` aggregators and the
cython/python profile engines — are repository code that is not under `src/`;
those are modelled here from the spec, each with a doc comment saying so.

All numerics use `ℚ`: the spec's "within floating tolerance" statements are
settled as exact rational equalities, which is strictly stronger.
-/

/-- Error taxonomy of the spec (section 7). -/
inductive PySpikeError where
  | IncompatibleIntervalError
  | InsufficientInputError
  | DomainError
deriving DecidableEq

deriving instance DecidableEq for Except

/-- Modelled from the spec: the `SpikeTrain` value type (not under `src/`);
sorted spike timestamps plus interval bounds. -/
structure SpikeTrain where
  spikes : List ℚ
  t_start : ℚ
  t_end : ℚ
deriving DecidableEq

instance : Inhabited SpikeTrain := ⟨⟨[], 0, 0⟩⟩

/-- Spec section 3: strictly increasing spike times, all inside `[t_start, t_end]`. -/
def SpikeTrain.valid (st : SpikeTrain) : Prop :=
  st.spikes.Pairwise (· < ·) ∧ ∀ s ∈ st.spikes, st.t_start ≤ s ∧ s ≤ st.t_end

instance (st : SpikeTrain) : Decidable st.valid :=
  inferInstanceAs (Decidable (st.spikes.Pairwise (· < ·) ∧
    ∀ s ∈ st.spikes, st.t_start ≤ s ∧ s ≤ st.t_end))

/-- Modelled from the spec: `SpikeTrain.get_spikes_non_empty` (not under `src/`);
the event sequence handed to the engine, with an empty train represented by its
interval endpoints so the engine always sees at least one inter-event gap. -/
def SpikeTrain.get_spikes_non_empty (st : SpikeTrain) : List ℚ :=
  match st.spikes with
  | [] => [st.t_start, st.t_end]
  | l => l

/-- Insert a rational into a strictly sorted list, dropping duplicates. -/
def insertSorted (x : ℚ) : List ℚ → List ℚ
  | [] => [x]
  | a :: l => if x < a then x :: a :: l else if x = a then a :: l else a :: insertSorted x l

/-- Strictly sorted list of the distinct elements of `l`. -/
def sortedUnion (l : List ℚ) : List ℚ := l.foldr insertSorted []

/-- Current inter-spike interval at time `t`, given the augmented (strictly
sorted, endpoint-extended) event list: the width of the event gap containing `t`. -/
def nuAt : List ℚ → ℚ → ℚ
  | a :: b :: rest, t => if t < b then b - a else nuAt (b :: rest) t
  | _, _ => 0

/-- The ISI dissimilarity of two current inter-spike intervals. -/
def isiRatio (nu1 nu2 : ℚ) : ℚ := |nu1 - nu2| / max nu1 nu2

/-- Event list of one train augmented with the interval endpoints. -/
def isiAug (s : List ℚ) (ts te : ℚ) : List ℚ := sortedUnion (ts :: te :: s)

/-- Breakpoints of a bivariate profile: endpoints and all events of both trains. -/
def isiTimes (s1 s2 : List ℚ) (ts te : ℚ) : List ℚ := sortedUnion (ts :: te :: (s1 ++ s2))

/-- Profile value at time `t` for the pair of event lists. -/
def isiValueAt (s1 s2 : List ℚ) (ts te : ℚ) (t : ℚ) : ℚ :=
  isiRatio (nuAt (isiAug s1 ts te) t) (nuAt (isiAug s2 ts te) t)

/-- Modelled from the spec: the portable (python) Profile Engine backend
(`cython.python_backend.isi_distance_python`, not under `src/`): it returns the
breakpoint list and, for each sub-interval, the ISI dissimilarity value. -/
def isi_profile_impl_py (s1 s2 : List ℚ) (ts te : ℚ) : List ℚ × List ℚ :=
  let times := isiTimes s1 s2 ts te
  (times, times.dropLast.map (isiValueAt s1 s2 ts te))

/-- Value list of the optimized backend, produced by a direct sweep over the
consecutive breakpoints rather than a map over segment left endpoints. -/
def isiValuesC (s1 s2 : List ℚ) (ts te : ℚ) : List ℚ → List ℚ
  | a :: b :: rest => isiValueAt s1 s2 ts te a :: isiValuesC s1 s2 ts te (b :: rest)
  | _ => []

/-- Modelled from the spec: the optimized Profile Engine backend
(`cython.cython_profiles.isi_profile_cython`, not under `src/`), an
implementation of the same engine contract by a single sweep. -/
def isi_profile_impl_c (s1 s2 : List ℚ) (ts te : ℚ) : List ℚ × List ℚ :=
  let times := isiTimes s1 s2 ts te
  (times, isiValuesC s1 s2 ts te times)

/-- Scalar sweep of the distance-only fast path: accumulates value times
segment length over consecutive breakpoints, materializing no profile. -/
def isiDistAux (s1 s2 : List ℚ) (ts te : ℚ) : List ℚ → ℚ
  | a :: b :: rest => isiValueAt s1 s2 ts te a * (b - a) + isiDistAux s1 s2 ts te (b :: rest)
  | _ => 0

/-- Modelled from the spec: the distance-only fast path
(`cython.cython_distances.isi_distance_cython`, not under `src/`): the scalar
integral computed directly, divided by the interval length. -/
def isi_distance_impl (s1 s2 : List ℚ) (ts te : ℚ) : ℚ :=
  isiDistAux s1 s2 ts te (isiTimes s1 s2 ts te) / (te - ts)

/-- Modelled from the spec: the `PieceWiseConstFunc` value type (not under
`src/`): breakpoints `x` and values `y`, `y i` holding on `[x i, x (i+1))`. -/
structure PieceWiseConstFunc where
  x : List ℚ
  y : List ℚ
deriving DecidableEq

/-- Value of a piecewise-constant function given the breakpoints after the
current position and the aligned values. -/
def evalSeg : List ℚ → List ℚ → ℚ → ℚ
  | b :: xs, v :: ys, t => if t < b then v else evalSeg xs ys t
  | _, _, _ => 0

/-- Value of the profile at time `t` (for `t` in the domain). -/
def PieceWiseConstFunc.eval (f : PieceWiseConstFunc) (t : ℚ) : ℚ :=
  evalSeg f.x.tail f.y t

/-- Spec 4.2 integral: sum of `value * (min t_next b - max t_prev a)` over the
segments, a segment lying outside `[a, b]` contributing `0`. -/
def segInt : ℚ → List ℚ → List ℚ → ℚ → ℚ → ℚ
  | p, q :: xs, v :: ys, a, b => v * max 0 (min q b - max p a) + segInt q xs ys a b
  | _, _, _, _, _ => 0

/-- Integral of the profile over `[a, b]`. -/
def PieceWiseConstFunc.integralOn (f : PieceWiseConstFunc) (a b : ℚ) : ℚ :=
  segInt (f.x.headD 0) f.x.tail f.y a b

/-- Modelled from the spec: `PieceWiseConstFunc.avrg` (not under `src/`):
interval average of the profile; `none` averages over the whole domain; a
requested interval must satisfy `T0 ≤ a < b ≤ T1`, else `DomainError`; a
zero-length domain makes averaging undefined. -/
def PieceWiseConstFunc.avrg (f : PieceWiseConstFunc) (interval : Option (ℚ × ℚ)) :
    Except PySpikeError ℚ :=
  match interval with
  | none =>
      if f.x.headD 0 < f.x.getLastD 0 then
        .ok (f.integralOn (f.x.headD 0) (f.x.getLastD 0) / (f.x.getLastD 0 - f.x.headD 0))
      else .error .DomainError
  | some ab =>
      if f.x.headD 0 ≤ ab.1 ∧ ab.1 < ab.2 ∧ ab.2 ≤ f.x.getLastD 0 then
        .ok (f.integralOn ab.1 ab.2 / (ab.2 - ab.1))
      else .error .DomainError

/-- Modelled from the spec: `PieceWiseConstFunc.add` (not under `src/`):
pointwise addition; breakpoints become the sorted union of both breakpoint
sets; the value on each resulting sub-segment is the sum of the two input
segment values covering it. -/
def PieceWiseConstFunc.add (f g : PieceWiseConstFunc) : PieceWiseConstFunc :=
  let xs := sortedUnion (f.x ++ g.x)
  ⟨xs, xs.dropLast.map (fun t => f.eval t + g.eval t)⟩

/-- Modelled from the spec: `PieceWiseConstFunc.mul_scalar` (not under `src/`):
multiply every value by a scalar, breakpoints unchanged. -/
def PieceWiseConstFunc.mul_scalar (f : PieceWiseConstFunc) (c : ℚ) : PieceWiseConstFunc :=
  ⟨f.x, f.y.map (fun v => v * c)⟩

/-- `isi_profile_bi` (src lines 45-81): asserts that the two trains share one
interval, selects the optimized or fallback engine (`avail` models whether the
cython import succeeds), and wraps the engine output in a profile. -/
def isi_profile_bi (avail : Bool) (st1 st2 : SpikeTrain) :
    Except PySpikeError PieceWiseConstFunc :=
  if st1.t_start = st2.t_start ∧ st1.t_end = st2.t_end then
    let impl := if avail then isi_profile_impl_c else isi_profile_impl_py
    let tv := impl st1.get_spikes_non_empty st2.get_spikes_non_empty st1.t_start st1.t_end
    .ok ⟨tv.1, tv.2⟩
  else .error .IncompatibleIntervalError

/-- Selection of the trains named by an index subset (default: all). -/
def selectTrains (sts : List SpikeTrain) (indices : Option (List ℕ)) : List SpikeTrain :=
  match indices with
  | none => sts
  | some idx => idx.filterMap (fun i => sts[i]?)

/-- All unordered pairs of a list, each pair in list order, enumerated once. -/
def listPairs {α : Type} : List α → List (α × α)
  | [] => []
  | a :: rest => rest.map (fun b => (a, b)) ++ listPairs rest

/-- Fail-fast map over a list: the whole aggregation aborts on the first
erroring pair, returning no partial result. -/
def exceptMap {α β : Type} (f : α → Except PySpikeError β) : List α → Except PySpikeError (List β)
  | [] => .ok []
  | a :: l => do
    let b ← f a
    let bs ← exceptMap f l
    pure (b :: bs)

/-- The all-zero accumulator profile over the common domain. -/
def zeroProfile (ts te : ℚ) : PieceWiseConstFunc := ⟨[ts, te], [0]⟩

/-- `isi_profile_multi` (src lines 87-105), with the pair reduction of
`_generic_profile_multi` modelled from the spec (not under `src/`): requires at
least two selected trains, accumulates the bivariate profile of every unordered
pair onto a zero accumulator over the common domain, then normalizes by `1/M`. -/
def isi_profile_multi (avail : Bool) (sts : List SpikeTrain) (indices : Option (List ℕ)) :
    Except PySpikeError PieceWiseConstFunc :=
  let sel := selectTrains sts indices
  if sel.length < 2 then .error .InsufficientInputError
  else do
    let st0 := sel.headD default
    let ps ← exceptMap (fun pr => isi_profile_bi avail pr.1 pr.2) (listPairs sel)
    pure ((ps.foldl PieceWiseConstFunc.add (zeroProfile st0.t_start st0.t_end)).mul_scalar
      (1 / ((listPairs sel).length : ℚ)))

/-- `isi_distance_bi` (src lines 144-177): with `interval = none` and the
optimized backend available it takes the distance-only fast path (which, as in
the source, runs no interval-compatibility check); otherwise it averages the
bivariate profile over the requested interval. -/
def isi_distance_bi (avail : Bool) (st1 st2 : SpikeTrain) (interval : Option (ℚ × ℚ)) :
    Except PySpikeError ℚ :=
  match interval with
  | none =>
      if avail then
        .ok (isi_distance_impl st1.get_spikes_non_empty st2.get_spikes_non_empty
          st1.t_start st1.t_end)
      else (isi_profile_bi avail st1 st2).bind (fun p => p.avrg none)
  | some ab => (isi_profile_bi avail st1 st2).bind (fun p => p.avrg (some ab))

/-- `isi_distance_multi` (src lines 183-201), with `_generic_distance_multi`
modelled from the spec (not under `src/`): sums the bivariate distance over all
unordered pairs of the selected trains and divides by the pair count `M`. -/
def isi_distance_multi (avail : Bool) (sts : List SpikeTrain) (indices : Option (List ℕ))
    (interval : Option (ℚ × ℚ)) : Except PySpikeError ℚ :=
  let sel := selectTrains sts indices
  if sel.length < 2 then .error .InsufficientInputError
  else do
    let ds ← exceptMap (fun pr => isi_distance_bi avail pr.1 pr.2 interval) (listPairs sel)
    pure (ds.sum / ((listPairs sel).length : ℚ))

/-- Upper-triangle index pairs `(i, j)` with `i < j < n`, each exactly once. -/
def upperPairs : ℕ → List (ℕ × ℕ)
  | 0 => []
  | n + 1 => upperPairs n ++ (List.range n).map (fun i => (i, n))

/-- The table of bivariate distances, one entry per unordered index pair:
the "compute each off-diagonal pair exactly once" part of `distanceMatrix`. -/
def pairTable (avail : Bool) (sel : List SpikeTrain) (interval : Option (ℚ × ℚ)) :
    Except PySpikeError (List ((ℕ × ℕ) × ℚ)) :=
  exceptMap
    (fun ij =>
      (isi_distance_bi avail (sel.getD ij.1 default) (sel.getD ij.2 default) interval).map
        (fun d => (ij, d)))
    (upperPairs sel.length)

/-- `isi_distance_matrix` (src lines 207-222), with `_generic_distance_matrix`
modelled from the spec (not under `src/`): each unordered pair is computed once
into `pairTable`, the upper triangle is read from it, the lower triangle is the
mirror, and the diagonal is `0`. -/
def isi_distance_matrix (avail : Bool) (sts : List SpikeTrain) (indices : Option (List ℕ))
    (interval : Option (ℚ × ℚ)) : Except PySpikeError (List (List ℚ)) :=
  let sel := selectTrains sts indices
  if sel.length < 2 then .error .InsufficientInputError
  else
    (pairTable avail sel interval).map (fun table =>
      (List.range sel.length).map (fun i =>
        (List.range sel.length).map (fun j =>
          if i = j then 0
          else if i < j then (table.lookup (i, j)).getD 0
          else (table.lookup (j, i)).getD 0)))

/-- A positional argument of the variadic python entry points: either a single
spike train or a collection of spike trains. -/
inductive PyArg where
  | train (st : SpikeTrain)
  | trains (sts : List SpikeTrain)

/-- The keyword arguments the module's entry points understand. -/
structure Kwargs where
  indices : Option (List ℕ) := none
  interval : Option (ℚ × ℚ) := none

/-- Reading a positional argument as one spike train. -/
def asTrain : PyArg → SpikeTrain
  | .train st => st
  | .trains sts => sts.headD default

/-- Reading a positional argument as a collection of spike trains. -/
def asCollection : PyArg → List SpikeTrain
  | .train st => [st]
  | .trains sts => sts

/-- `isi_profile` dispatcher (src lines 16-39): one positional argument is a
collection for the multivariate path with forwarded keyword arguments; exactly
two positional arguments take the bivariate path, keyword arguments dropped;
any other arity treats the argument list as the collection, keyword arguments
dropped. -/
def isi_profile (avail : Bool) (args : List PyArg) (kw : Kwargs) :
    Except PySpikeError PieceWiseConstFunc :=
  match args with
  | [a] => isi_profile_multi avail (asCollection a) kw.indices
  | [a, b] => isi_profile_bi avail (asTrain a) (asTrain b)
  | _ => isi_profile_multi avail (args.map asTrain) none

/-- `isi_distance` dispatcher (src lines 111-138): same arity resolution as
`isi_profile`, but the keyword arguments are forwarded on every path. -/
def isi_distance (avail : Bool) (args : List PyArg) (kw : Kwargs) :
    Except PySpikeError ℚ :=
  match args with
  | [a] => isi_distance_multi avail (asCollection a) kw.indices kw.interval
  | [a, b] => isi_distance_bi avail (asTrain a) (asTrain b) kw.interval
  | _ => isi_distance_multi avail (args.map asTrain) kw.indices kw.interval

/-- Structural invariants of a profile over the domain `[ts, te]`: strictly
increasing breakpoints starting at `ts` and ending at `te`, with one more
breakpoint than values. -/
def PwcWf (ts te : ℚ) (f : PieceWiseConstFunc) : Prop :=
  f.x.Chain' (· < ·) ∧ f.x.head? = some ts ∧ f.x.getLast? = some te ∧
    f.x.length = f.y.length + 1

/-- All values of the profile are nonnegative. -/
def NonnegVals (f : PieceWiseConstFunc) : Prop := ∀ v ∈ f.y, 0 ≤ v

/-- The profile a compatible pair is wrapped into by `isi_profile_bi`
(engine output over the common interval of the pair). -/
def biProfile (st1 st2 : SpikeTrain) : PieceWiseConstFunc :=
  let tv := isi_profile_impl_py st1.get_spikes_non_empty st2.get_spikes_non_empty
    st1.t_start st1.t_end
  ⟨tv.1, tv.2⟩

/-- Validity of a requested averaging interval for the domain `[ts, te]`. -/
def intervalOk (ts te : ℚ) : Option (ℚ × ℚ) → Prop
  | none => True
  | some ab => ts ≤ ab.1 ∧ ab.1 < ab.2 ∧ ab.2 ≤ te

instance (ts te : ℚ) (interval : Option (ℚ × ℚ)) : Decidable (intervalOk ts te interval) := by
  cases interval with
  | none => exact isTrue trivial
  | some ab =>
    show Decidable (ts ≤ ab.1 ∧ ab.1 < ab.2 ∧ ab.2 ≤ te)
    infer_instance

/-- The endpoints an averaging request resolves to: the whole domain for
`none`, the requested pair otherwise. -/
def resolvedIv (ts te : ℚ) : Option (ℚ × ℚ) → ℚ × ℚ
  | none => (ts, te)
  | some ab => ab

/-! ### Sorted-list machinery -/

theorem mem_insertSorted {y x : ℚ} {l : List ℚ} :
    y ∈ insertSorted x l ↔ y = x ∨ y ∈ l := by
  induction l with
  | nil => simp [insertSorted]
  | cons a l ih =>
    simp only [insertSorted]
    split_ifs with h1 h2
    · simp only [List.mem_cons]
    · subst h2
      simp only [List.mem_cons]
      tauto
    · simp only [List.mem_cons, ih]
      tauto

theorem pairwise_insertSorted {x : ℚ} {l : List ℚ} (h : l.Pairwise (· < ·)) :
    (insertSorted x l).Pairwise (· < ·) := by
  induction l with
  | nil => simp [insertSorted]
  | cons a l ih =>
    rcases List.pairwise_cons.mp h with ⟨ha, hl⟩
    simp only [insertSorted]
    split_ifs with h1 h2
    · refine List.pairwise_cons.mpr ⟨fun b hb => ?_, h⟩
      rcases List.mem_cons.mp hb with rfl | hb
      · exact h1
      · exact lt_trans h1 (ha b hb)
    · exact h
    · have hax : a < x := lt_of_le_of_ne (not_lt.mp h1) (fun he => h2 he.symm)
      refine List.pairwise_cons.mpr ⟨fun b hb => ?_, ih hl⟩
      rcases mem_insertSorted.mp hb with rfl | hb
      · exact hax
      · exact ha b hb

theorem sortedUnion_cons (a : ℚ) (l : List ℚ) :
    sortedUnion (a :: l) = insertSorted a (sortedUnion l) := rfl

theorem mem_sortedUnion {y : ℚ} {l : List ℚ} : y ∈ sortedUnion l ↔ y ∈ l := by
  induction l with
  | nil => simp [sortedUnion]
  | cons a l ih => rw [sortedUnion_cons, mem_insertSorted, ih, List.mem_cons]

theorem pairwise_sortedUnion {l : List ℚ} : (sortedUnion l).Pairwise (· < ·) := by
  induction l with
  | nil => simp [sortedUnion]
  | cons a l ih =>
    rw [sortedUnion_cons]
    exact pairwise_insertSorted ih

theorem chain'_sortedUnion {l : List ℚ} : (sortedUnion l).Chain' (· < ·) :=
  List.chain'_iff_pairwise.mpr pairwise_sortedUnion

theorem head?_eq_of_pairwise {l : List ℚ} {m : ℚ} (hp : l.Pairwise (· < ·))
    (hm : m ∈ l) (hle : ∀ y ∈ l, m ≤ y) : l.head? = some m := by
  cases l with
  | nil => cases hm
  | cons a l =>
    rcases List.mem_cons.mp hm with rfl | hm2
    · rfl
    · have h1 := (List.pairwise_cons.mp hp).1 m hm2
      exact absurd h1 (not_lt.mpr (hle a (List.mem_cons_self a l)))

theorem getLast?_eq_of_pairwise {l : List ℚ} {m : ℚ} (hp : l.Pairwise (· < ·))
    (hm : m ∈ l) (hle : ∀ y ∈ l, y ≤ m) : l.getLast? = some m := by
  induction l with
  | nil => cases hm
  | cons a l ih =>
    cases l with
    | nil =>
      rcases List.mem_cons.mp hm with rfl | hm2
      · rfl
      · cases hm2
    | cons b l' =>
      rw [List.getLast?_cons_cons]
      rcases List.pairwise_cons.mp hp with ⟨ha, hl⟩
      rcases List.mem_cons.mp hm with rfl | hm2
      · have h1 := ha b (List.mem_cons_self b l')
        exact absurd h1 (not_lt.mpr (hle b (List.mem_cons.mpr (Or.inr (List.mem_cons_self b l')))))
      · exact ih hl hm2 (fun y hy => hle y (List.mem_cons.mpr (Or.inr hy)))

theorem le_of_head?_pairwise {l : List ℚ} {ts : ℚ} (hp : l.Pairwise (· < ·))
    (hh : l.head? = some ts) : ∀ y ∈ l, ts ≤ y := by
  cases l with
  | nil => intro y hy; cases hy
  | cons a l =>
    intro y hy
    have : a = ts := by simpa using hh
    subst this
    rcases List.mem_cons.mp hy with rfl | hy2
    · exact le_refl y
    · exact le_of_lt ((List.pairwise_cons.mp hp).1 y hy2)

theorem le_of_getLast?_pairwise {l : List ℚ} {te : ℚ} (hp : l.Pairwise (· < ·))
    (hh : l.getLast? = some te) : ∀ y ∈ l, y ≤ te := by
  induction l with
  | nil => intro y hy; cases hy
  | cons a l ih =>
    rcases List.pairwise_cons.mp hp with ⟨ha, hl⟩
    intro y hy
    cases l with
    | nil =>
      have hat : a = te := by simpa using hh
      rcases List.mem_cons.mp hy with rfl | hy2
      · exact le_of_eq hat
      · cases hy2
    | cons b l' =>
      rw [List.getLast?_cons_cons] at hh
      have hb : ∀ z ∈ b :: l', z ≤ te := ih hl hh
      rcases List.mem_cons.mp hy with rfl | hy2
      · exact le_trans (le_of_lt (ha b (List.mem_cons_self b l')))
          (hb b (List.mem_cons_self b l'))
      · exact hb y hy2

theorem mem_of_getLast?_eq {l : List ℚ} {m : ℚ} (h : l.getLast? = some m) : m ∈ l := by
  induction l with
  | nil => cases h
  | cons a l ih =>
    cases l with
    | nil =>
      simp only [List.getLast?_singleton, Option.some.injEq] at h
      subst h
      exact List.mem_cons_self a []
    | cons b l' =>
      rw [List.getLast?_cons_cons] at h
      exact List.mem_cons.mpr (Or.inr (ih h))

/-! ### Elementary evaluation and integral lemmas -/

theorem evalSeg_nonneg : ∀ (xs ys : List ℚ), (∀ v ∈ ys, 0 ≤ v) → ∀ t, 0 ≤ evalSeg xs ys t := by
  intro xs
  induction xs with
  | nil => intro ys _ t; simp [evalSeg]
  | cons b xs ih =>
    intro ys h t
    cases ys with
    | nil => simp [evalSeg]
    | cons v ys =>
      simp only [evalSeg]
      split_ifs
      · exact h v (List.mem_cons_self v ys)
      · exact ih ys (fun u hu => h u (List.mem_cons.mpr (Or.inr hu))) t

theorem evalSeg_map_add (F G : ℚ → ℚ) :
    ∀ (xs ls : List ℚ) (t : ℚ),
      evalSeg xs (ls.map (fun u => F u + G u)) t =
        evalSeg xs (ls.map F) t + evalSeg xs (ls.map G) t := by
  intro xs
  induction xs with
  | nil => intro ls t; simp [evalSeg]
  | cons b xs ih =>
    intro ls t
    cases ls with
    | nil => simp [evalSeg]
    | cons a ls =>
      simp only [List.map_cons, evalSeg]
      split_ifs
      · rfl
      · exact ih ls t

theorem evalSeg_map_mul (c : ℚ) :
    ∀ (xs ys : List ℚ) (t : ℚ),
      evalSeg xs (ys.map (fun v => v * c)) t = evalSeg xs ys t * c := by
  intro xs
  induction xs with
  | nil => intro ys t; simp [evalSeg]
  | cons b xs ih =>
    intro ys t
    cases ys with
    | nil => simp [evalSeg]
    | cons v ys =>
      simp only [List.map_cons, evalSeg]
      split_ifs
      · rfl
      · exact ih ys t

theorem segInt_map_add (F G : ℚ → ℚ) :
    ∀ (xs : List ℚ) (p : ℚ) (ls : List ℚ) (a b : ℚ),
      segInt p xs (ls.map (fun u => F u + G u)) a b =
        segInt p xs (ls.map F) a b + segInt p xs (ls.map G) a b := by
  intro xs
  induction xs with
  | nil => intro p ls a b; simp [segInt]
  | cons q xs ih =>
    intro p ls a b
    cases ls with
    | nil => simp [segInt]
    | cons u ls =>
      simp only [List.map_cons, segInt]
      rw [ih]
      ring

theorem segInt_map_mul (c : ℚ) :
    ∀ (xs : List ℚ) (p : ℚ) (ys : List ℚ) (a b : ℚ),
      segInt p xs (ys.map (fun v => v * c)) a b = segInt p xs ys a b * c := by
  intro xs
  induction xs with
  | nil => intro p ys a b; simp [segInt]
  | cons q xs ih =>
    intro p ys a b
    cases ys with
    | nil => simp [segInt]
    | cons v ys =>
      simp only [List.map_cons, segInt]
      rw [ih]
      ring

set_option maxHeartbeats 1000000 in
/-- Clamped segment length as a difference of the clamp function
`t ↦ min b (max a t)`: the key identity behind splitting an integral at an
intermediate breakpoint. -/
theorem clampLen_eq (a b : ℚ) {x y : ℚ} (hxy : x ≤ y) :
    max 0 (min y b - max x a) = min b (max a y) - min b (max a x) := by
  simp only [max_def, min_def]
  split_ifs <;> linarith

/-- Splitting off the initial piece of a segment integral at an intermediate
point `z` between the current position and the next breakpoint. -/
theorem segInt_shift {p z q : ℚ} (xs ys : List ℚ) (v a b : ℚ)
    (hpz : p ≤ z) (hzq : z ≤ q) :
    v * max 0 (min z b - max p a) + segInt z (q :: xs) (v :: ys) a b =
      segInt p (q :: xs) (v :: ys) a b := by
  simp only [segInt]
  rw [clampLen_eq a b hpz, clampLen_eq a b hzq, clampLen_eq a b (le_trans hpz hzq)]
  ring

theorem getLast?_cons_of_ne_nil {a : ℚ} {l : List ℚ} (h : l ≠ []) :
    (a :: l).getLast? = l.getLast? := by
  cases l with
  | nil => exact absurd rfl h
  | cons b l' => exact List.getLast?_cons_cons

/-- Evaluating a piecewise-constant function through a refined partition: if
the sampled values of `evalSeg xs (v :: ys)` at the left endpoints of the
partition `p :: zs` are read back through the partition `zs`, the original
function is recovered at every point of the domain. -/
theorem sample_eval (te : ℚ) :
    ∀ (zs xs ys : List ℚ) (p v t : ℚ),
      (p :: zs).Chain' (· < ·) →
      xs.Chain' (· < ·) →
      (∀ u ∈ xs, u ∈ zs) →
      xs.length = ys.length + 1 →
      zs.getLast? = some te →
      xs.getLast? = some te →
      p ≤ t → t < te →
      evalSeg zs ((p :: zs).dropLast.map (evalSeg xs (v :: ys))) t =
        evalSeg xs (v :: ys) t := by
  intro zs
  induction zs with
  | nil =>
    intro xs ys p v t _ _ _ _ hzl _ _ _
    cases hzl
  | cons z zs' ih =>
    intro xs ys p v t hchz hchx hsub hlen hzl hxl hpt hte
    have hpz : ∀ u ∈ z :: zs', p < u :=
      (List.pairwise_cons.mp (List.chain'_iff_pairwise.mp hchz)).1
    have hz_lt : ∀ u ∈ zs', z < u :=
      (List.pairwise_cons.mp (List.chain'_iff_pairwise.mp hchz.tail)).1
    obtain ⟨x, xs'', rfl⟩ : ∃ x xs'', xs = x :: xs'' := by
      cases xs with
      | nil => simp at hlen
      | cons x xs'' => exact ⟨x, xs'', rfl⟩
    have hx_mem : x ∈ z :: zs' := hsub x (List.mem_cons_self x xs'')
    have hpx : p < x := hpz x hx_mem
    have hdl : (p :: z :: zs').dropLast = p :: (z :: zs').dropLast := rfl
    rw [hdl, List.map_cons]
    by_cases htz : t < z
    · have htx : t < x := by
        rcases List.mem_cons.mp hx_mem with rfl | hx2
        · exact htz
        · exact lt_trans htz (hz_lt x hx2)
      show (if t < z then evalSeg (x :: xs'') (v :: ys) p
        else evalSeg zs' ((z :: zs').dropLast.map (evalSeg (x :: xs'') (v :: ys))) t) = _
      rw [if_pos htz]
      show (if p < x then v else evalSeg xs'' ys p) = evalSeg (x :: xs'') (v :: ys) t
      rw [if_pos hpx]
      show v = if t < x then v else evalSeg xs'' ys t
      rw [if_pos htx]
    · push_neg at htz
      have hzte : z < te := lt_of_le_of_lt htz hte
      have hzs'_ne : zs' ≠ [] := by
        intro h
        subst h
        have : z = te := by simpa using hzl
        exact absurd this (ne_of_lt hzte)
      have hzl' : zs'.getLast? = some te := by
        rw [getLast?_cons_of_ne_nil hzs'_ne] at hzl
        exact hzl
      show (if t < z then evalSeg (x :: xs'') (v :: ys) p
        else evalSeg zs' ((z :: zs').dropLast.map (evalSeg (x :: xs'') (v :: ys))) t) = _
      rw [if_neg (not_lt.mpr htz)]
      have hxtail : ∀ u ∈ xs'', x < u :=
        (List.pairwise_cons.mp (List.chain'_iff_pairwise.mp hchx)).1
      by_cases hxz : x = z
      · subst hxz
        have hx''_ne : xs'' ≠ [] := by
          intro h
          subst h
          have : x = te := by simpa using hxl
          exact absurd this (ne_of_lt hzte)
        have hxl' : xs''.getLast? = some te := by
          rw [getLast?_cons_of_ne_nil hx''_ne] at hxl
          exact hxl
        obtain ⟨y1, ys', rfl⟩ : ∃ y1 ys', ys = y1 :: ys' := by
          cases ys with
          | nil =>
            simp only [List.length_cons, List.length_nil] at hlen
            exact absurd (List.length_eq_zero.mp (by omega)) hx''_ne
          | cons y1 ys' => exact ⟨y1, ys', rfl⟩
        have hcong : (x :: zs').dropLast.map (evalSeg (x :: xs'') (v :: y1 :: ys')) =
            (x :: zs').dropLast.map (evalSeg xs'' (y1 :: ys')) := by
          apply List.map_congr_left
          intro u hu
          have hu_mem : u ∈ x :: zs' := List.dropLast_subset _ hu
          have hzu : x ≤ u := by
            rcases List.mem_cons.mp hu_mem with rfl | h
            · exact le_refl u
            · exact le_of_lt (hz_lt u h)
          show (if u < x then v else evalSeg xs'' (y1 :: ys') u) = _
          rw [if_neg (not_lt.mpr hzu)]
        rw [hcong]
        have hrhs : evalSeg (x :: xs'') (v :: y1 :: ys') t = evalSeg xs'' (y1 :: ys') t := by
          show (if t < x then v else evalSeg xs'' (y1 :: ys') t) = _
          rw [if_neg (not_lt.mpr htz)]
        rw [hrhs]
        apply ih xs'' ys' x y1 t hchz.tail hchx.tail
        · intro u hu
          have : u ∈ x :: zs' := hsub u (List.mem_cons.mpr (Or.inr hu))
          rcases List.mem_cons.mp this with rfl | h
          · exact absurd (hxtail u hu) (lt_irrefl u)
          · exact h
        · simpa using hlen
        · exact hzl'
        · exact hxl'
        · exact htz
        · exact hte
      · have hxzs' : x ∈ zs' := by
          rcases List.mem_cons.mp hx_mem with rfl | h
          · exact absurd rfl hxz
          · exact h
        have hzx : z < x := hz_lt x hxzs'
        apply ih (x :: xs'') ys z v t hchz.tail hchx
        · intro u hu
          have hu2 : u ∈ z :: zs' := hsub u hu
          have hzu : z < u := by
            rcases List.mem_cons.mp hu with rfl | h
            · exact hzx
            · exact lt_trans hzx (hxtail u h)
          rcases List.mem_cons.mp hu2 with rfl | h
          · exact absurd hzu (lt_irrefl u)
          · exact h
        · exact hlen
        · exact hzl'
        · exact hxl
        · exact htz
        · exact hte

theorem evalSeg_cons (q : ℚ) (xs : List ℚ) (v : ℚ) (ys : List ℚ) (t : ℚ) :
    evalSeg (q :: xs) (v :: ys) t = if t < q then v else evalSeg xs ys t := rfl

theorem segInt_cons (p q : ℚ) (xs : List ℚ) (v : ℚ) (ys : List ℚ) (a b : ℚ) :
    segInt p (q :: xs) (v :: ys) a b =
      v * max 0 (min q b - max p a) + segInt q xs ys a b := rfl

/-- Integrating a piecewise-constant function through a refined partition:
reading the sampled values back through the finer partition yields the same
segment integral as the original breakpoint/value lists. -/
theorem sample_int (te a b : ℚ) :
    ∀ (zs xs ys : List ℚ) (p v : ℚ),
      (p :: zs).Chain' (· < ·) →
      xs.Chain' (· < ·) →
      (∀ u ∈ xs, u ∈ zs) →
      xs.length = ys.length + 1 →
      zs.getLast? = some te →
      xs.getLast? = some te →
      segInt p zs ((p :: zs).dropLast.map (evalSeg xs (v :: ys))) a b =
        segInt p xs (v :: ys) a b := by
  intro zs
  induction zs with
  | nil =>
    intro xs ys p v _ _ _ _ hzl _
    cases hzl
  | cons z zs' ih =>
    intro xs ys p v hchz hchx hsub hlen hzl hxl
    have hpz : ∀ u ∈ z :: zs', p < u :=
      (List.pairwise_cons.mp (List.chain'_iff_pairwise.mp hchz)).1
    have hz_lt : ∀ u ∈ zs', z < u :=
      (List.pairwise_cons.mp (List.chain'_iff_pairwise.mp hchz.tail)).1
    obtain ⟨x, xs'', rfl⟩ : ∃ x xs'', xs = x :: xs'' := by
      cases xs with
      | nil => simp at hlen
      | cons x xs'' => exact ⟨x, xs'', rfl⟩
    have hx_mem : x ∈ z :: zs' := hsub x (List.mem_cons_self x xs'')
    have hpx : p < x := hpz x hx_mem
    have hxtail : ∀ u ∈ xs'', x < u :=
      (List.pairwise_cons.mp (List.chain'_iff_pairwise.mp hchx)).1
    have hdl : (p :: z :: zs').dropLast = p :: (z :: zs').dropLast := rfl
    have hFp : evalSeg (x :: xs'') (v :: ys) p = v := by
      rw [evalSeg_cons, if_pos hpx]
    rw [hdl, List.map_cons, segInt_cons, hFp]
    by_cases hxz : x = z
    · subst hxz
      by_cases hzs' : zs' = []
      · subst hzs'
        have hx'' : xs'' = [] := by
          by_contra hne
          have h1 : xs''.getLast? = some te := by
            rw [getLast?_cons_of_ne_nil hne] at hxl
            exact hxl
          have h2 : te ∈ xs'' := mem_of_getLast?_eq h1
          have h3 : x < te := hxtail te h2
          have h4 : x = te := by simpa using hzl
          rw [h4] at h3
          exact absurd h3 (lt_irrefl te)
        subst hx''
        have hys : ys = [] := by
          simpa [List.length_eq_zero] using hlen.symm
        subst hys
        rw [segInt_cons]
        show v * max 0 (min x b - max p a) + segInt x [] [] a b =
          v * max 0 (min x b - max p a) + segInt x [] [] a b
        rfl
      · have hzl' : zs'.getLast? = some te := by
          rw [getLast?_cons_of_ne_nil hzs'] at hzl
          exact hzl
        have hzte : x < te := by
          have := mem_of_getLast?_eq hzl'
          exact hz_lt te this
        have hx''_ne : xs'' ≠ [] := by
          intro h
          subst h
          have : x = te := by simpa using hxl
          exact absurd this (ne_of_lt hzte)
        have hxl' : xs''.getLast? = some te := by
          rw [getLast?_cons_of_ne_nil hx''_ne] at hxl
          exact hxl
        obtain ⟨y1, ys', rfl⟩ : ∃ y1 ys', ys = y1 :: ys' := by
          cases ys with
          | nil =>
            simp only [List.length_cons, List.length_nil] at hlen
            exact absurd (List.length_eq_zero.mp (by omega)) hx''_ne
          | cons y1 ys' => exact ⟨y1, ys', rfl⟩
        have hcong : (x :: zs').dropLast.map (evalSeg (x :: xs'') (v :: y1 :: ys')) =
            (x :: zs').dropLast.map (evalSeg xs'' (y1 :: ys')) := by
          apply List.map_congr_left
          intro u hu
          have hu_mem : u ∈ x :: zs' := List.dropLast_subset _ hu
          have hzu : x ≤ u := by
            rcases List.mem_cons.mp hu_mem with rfl | h
            · exact le_refl u
            · exact le_of_lt (hz_lt u h)
          rw [evalSeg_cons, if_neg (not_lt.mpr hzu)]
        rw [hcong, segInt_cons]
        congr 1
        apply ih xs'' ys' x y1 hchz.tail hchx.tail
        · intro u hu
          have : u ∈ x :: zs' := hsub u (List.mem_cons.mpr (Or.inr hu))
          rcases List.mem_cons.mp this with rfl | h
          · exact absurd (hxtail u hu) (lt_irrefl u)
          · exact h
        · simpa using hlen
        · exact hzl'
        · exact hxl'
    · have hxzs' : x ∈ zs' := by
        rcases List.mem_cons.mp hx_mem with rfl | h
        · exact absurd rfl hxz
        · exact h
      have hzx : z < x := hz_lt x hxzs'
      have hzs'_ne : zs' ≠ [] := by
        intro h
        rw [h] at hxzs'
        cases hxzs'
      have hzl' : zs'.getLast? = some te := by
        rw [getLast?_cons_of_ne_nil hzs'_ne] at hzl
        exact hzl
      have hsub' : ∀ u ∈ x :: xs'', u ∈ zs' := by
        intro u hu
        have hu2 : u ∈ z :: zs' := hsub u hu
        have hzu : z < u := by
          rcases List.mem_cons.mp hu with rfl | h
          · exact hzx
          · exact lt_trans hzx (hxtail u h)
        rcases List.mem_cons.mp hu2 with rfl | h
        · exact absurd hzu (lt_irrefl u)
        · exact h
      have hih := ih (x :: xs'') ys z v hchz.tail hchx hsub' hlen hzl' hxl
      rw [hih]
      exact segInt_shift xs'' ys v a b (le_of_lt (hpz z (List.mem_cons_self z zs')))
        (le_of_lt hzx)

/-! ### Profile well-formedness and the algebra of `add` and `mul_scalar` -/

theorem mem_of_head?_eq {l : List ℚ} {m : ℚ} (h : l.head? = some m) : m ∈ l := by
  cases l with
  | nil => cases h
  | cons a l =>
    have : a = m := by simpa using h
    subst this
    exact List.mem_cons_self a l

theorem headD_eq_of_head? {l : List ℚ} {m : ℚ} (d : ℚ) (h : l.head? = some m) :
    l.headD d = m := by
  cases l with
  | nil => cases h
  | cons a l => simpa using h

theorem getLastD_eq_of_getLast? {l : List ℚ} {m : ℚ} (d : ℚ) (h : l.getLast? = some m) :
    l.getLastD d = m := by
  rw [List.getLastD_eq_getLast?, h]
  rfl

theorem wf_zeroProfile {ts te : ℚ} (hlt : ts < te) : PwcWf ts te (zeroProfile ts te) := by
  refine ⟨?_, rfl, rfl, rfl⟩
  simp [zeroProfile, List.chain'_cons, hlt]

theorem nonneg_zeroProfile (ts te : ℚ) : NonnegVals (zeroProfile ts te) := by
  intro v hv
  simp only [zeroProfile] at hv
  rcases List.mem_cons.mp hv with rfl | h
  · exact le_refl 0
  · cases h

theorem wf_add {ts te : ℚ} {f g : PieceWiseConstFunc}
    (hf : PwcWf ts te f) (hg : PwcWf ts te g) : PwcWf ts te (f.add g) := by
  obtain ⟨hcf, hhf, hlf, hnf⟩ := hf
  obtain ⟨hcg, hhg, hlg, hng⟩ := hg
  have hpw : (sortedUnion (f.x ++ g.x)).Pairwise (· < ·) := pairwise_sortedUnion
  have hts_mem : ts ∈ sortedUnion (f.x ++ g.x) :=
    mem_sortedUnion.mpr (List.mem_append.mpr (Or.inl (mem_of_head?_eq hhf)))
  have hte_mem : te ∈ sortedUnion (f.x ++ g.x) :=
    mem_sortedUnion.mpr (List.mem_append.mpr (Or.inl (mem_of_getLast?_eq hlf)))
  have hlow : ∀ y ∈ sortedUnion (f.x ++ g.x), ts ≤ y := by
    intro y hy
    rcases List.mem_append.mp (mem_sortedUnion.mp hy) with h | h
    · exact le_of_head?_pairwise (List.chain'_iff_pairwise.mp hcf) hhf y h
    · exact le_of_head?_pairwise (List.chain'_iff_pairwise.mp hcg) hhg y h
  have hhigh : ∀ y ∈ sortedUnion (f.x ++ g.x), y ≤ te := by
    intro y hy
    rcases List.mem_append.mp (mem_sortedUnion.mp hy) with h | h
    · exact le_of_getLast?_pairwise (List.chain'_iff_pairwise.mp hcf) hlf y h
    · exact le_of_getLast?_pairwise (List.chain'_iff_pairwise.mp hcg) hlg y h
  refine ⟨chain'_sortedUnion, head?_eq_of_pairwise hpw hts_mem hlow,
    getLast?_eq_of_pairwise hpw hte_mem hhigh, ?_⟩
  have hne : sortedUnion (f.x ++ g.x) ≠ [] := List.ne_nil_of_mem hts_mem
  have hpos : 0 < (sortedUnion (f.x ++ g.x)).length := List.length_pos.mpr hne
  show (sortedUnion (f.x ++ g.x)).length =
    ((sortedUnion (f.x ++ g.x)).dropLast.map (fun t => f.eval t + g.eval t)).length + 1
  rw [List.length_map, List.length_dropLast]
  omega

theorem nonneg_add {f g : PieceWiseConstFunc}
    (hf : NonnegVals f) (hg : NonnegVals g) : NonnegVals (f.add g) := by
  intro v hv
  rcases List.mem_map.mp hv with ⟨u, _, rfl⟩
  exact add_nonneg (evalSeg_nonneg f.x.tail f.y hf u) (evalSeg_nonneg g.x.tail g.y hg u)

theorem nonneg_mul_scalar {f : PieceWiseConstFunc} {c : ℚ}
    (hf : NonnegVals f) (hc : 0 ≤ c) : NonnegVals (f.mul_scalar c) := by
  intro v hv
  rcases List.mem_map.mp hv with ⟨u, hu, rfl⟩
  exact mul_nonneg (hf u hu) hc

theorem wf_mul_scalar {ts te : ℚ} {f : PieceWiseConstFunc} (c : ℚ)
    (hf : PwcWf ts te f) : PwcWf ts te (f.mul_scalar c) := by
  obtain ⟨hcf, hhf, hlf, hnf⟩ := hf
  refine ⟨hcf, hhf, hlf, ?_⟩
  show f.x.length = (f.y.map (fun v => v * c)).length + 1
  rw [List.length_map]
  exact hnf

/-- Sampling a well-formed profile at the left endpoints of any refining
partition and evaluating back through that partition recovers the profile. -/
theorem sample_pwc_eval {ts te : ℚ} {f : PieceWiseConstFunc} (hf : PwcWf ts te f)
    (hlt : ts < te) {zs : List ℚ}
    (hchZ : zs.Chain' (· < ·)) (hhZ : zs.head? = some ts) (hlZ : zs.getLast? = some te)
    (hsubZ : ∀ u ∈ f.x, u ∈ zs) {t : ℚ} (h1 : ts ≤ t) (h2 : t < te) :
    evalSeg zs.tail (zs.dropLast.map f.eval) t = f.eval t := by
  obtain ⟨hcf, hhf, hlf, hnf⟩ := hf
  have hconsZ : ts :: zs.tail = zs := List.cons_head?_tail hhZ
  have htailZ_ne : zs.tail ≠ [] := by
    intro h
    have h3 : zs = [ts] := by rw [← hconsZ, h]
    rw [h3] at hlZ
    have : ts = te := by simpa using hlZ
    exact absurd this (ne_of_lt hlt)
  have hlastZt : zs.tail.getLast? = some te := by
    have h4 := hlZ
    rw [← hconsZ, getLast?_cons_of_ne_nil htailZ_ne] at h4
    exact h4
  have hchZ2 : (ts :: zs.tail).Chain' (· < ·) := by
    rw [hconsZ]
    exact hchZ
  have hconsF : ts :: f.x.tail = f.x := List.cons_head?_tail hhf
  have htailF_ne : f.x.tail ≠ [] := by
    intro h
    have h3 : f.x = [ts] := by rw [← hconsF, h]
    rw [h3] at hlf
    have : ts = te := by simpa using hlf
    exact absurd this (ne_of_lt hlt)
  have hlastFt : f.x.tail.getLast? = some te := by
    have h4 := hlf
    rw [← hconsF, getLast?_cons_of_ne_nil htailF_ne] at h4
    exact h4
  obtain ⟨vf, yf, hyf⟩ : ∃ vf yf, f.y = vf :: yf := by
    cases hyy : f.y with
    | nil =>
      rw [hyy] at hnf
      have h4 : f.x.length = 1 := by simpa using hnf
      have h5 : f.x.tail.length = 0 := by
        rw [← hconsF] at h4
        simpa using h4
      exact absurd (List.length_eq_zero.mp h5) htailF_ne
    | cons vf yf => exact ⟨vf, yf, rfl⟩
  have hchF2 : (ts :: f.x.tail).Chain' (· < ·) := by
    rw [hconsF]
    exact hcf
  have hsub' : ∀ u ∈ f.x.tail, u ∈ zs.tail := by
    intro u hu
    have hu_fx : u ∈ f.x := by
      rw [← hconsF]
      exact List.mem_cons.mpr (Or.inr hu)
    have hu_zs : u ∈ zs := hsubZ u hu_fx
    have hts_u : ts < u :=
      (List.pairwise_cons.mp (List.chain'_iff_pairwise.mp hchF2)).1 u hu
    rw [← hconsZ] at hu_zs
    rcases List.mem_cons.mp hu_zs with rfl | h
    · exact absurd hts_u (lt_irrefl u)
    · exact h
  have hlen' : f.x.tail.length = yf.length + 1 := by
    have h4 := hnf
    rw [← hconsF, hyf] at h4
    simpa using h4
  have hchFt : f.x.tail.Chain' (· < ·) := hchF2.tail
  have hmap : zs.dropLast.map f.eval =
      (ts :: zs.tail).dropLast.map (evalSeg f.x.tail (vf :: yf)) := by
    rw [hconsZ]
    apply List.map_congr_left
    intro u _
    show f.eval u = evalSeg f.x.tail (vf :: yf) u
    rw [show f.eval u = evalSeg f.x.tail f.y u from rfl, hyf]
  rw [hmap, show f.eval t = evalSeg f.x.tail (vf :: yf) t by
    rw [show f.eval t = evalSeg f.x.tail f.y t from rfl, hyf]]
  exact sample_eval te zs.tail f.x.tail yf ts vf t hchZ2 hchFt hsub' hlen' hlastZt hlastFt h1 h2

/-- Sampling a well-formed profile at the left endpoints of any refining
partition and integrating through that partition yields the same integral. -/
theorem sample_pwc_int {ts te : ℚ} {f : PieceWiseConstFunc} (hf : PwcWf ts te f)
    (hlt : ts < te) {zs : List ℚ}
    (hchZ : zs.Chain' (· < ·)) (hhZ : zs.head? = some ts) (hlZ : zs.getLast? = some te)
    (hsubZ : ∀ u ∈ f.x, u ∈ zs) (a b : ℚ) :
    segInt ts zs.tail (zs.dropLast.map f.eval) a b = f.integralOn a b := by
  obtain ⟨hcf, hhf, hlf, hnf⟩ := hf
  have hconsZ : ts :: zs.tail = zs := List.cons_head?_tail hhZ
  have htailZ_ne : zs.tail ≠ [] := by
    intro h
    have h3 : zs = [ts] := by rw [← hconsZ, h]
    rw [h3] at hlZ
    have : ts = te := by simpa using hlZ
    exact absurd this (ne_of_lt hlt)
  have hlastZt : zs.tail.getLast? = some te := by
    have h4 := hlZ
    rw [← hconsZ, getLast?_cons_of_ne_nil htailZ_ne] at h4
    exact h4
  have hchZ2 : (ts :: zs.tail).Chain' (· < ·) := by
    rw [hconsZ]
    exact hchZ
  have hconsF : ts :: f.x.tail = f.x := List.cons_head?_tail hhf
  have htailF_ne : f.x.tail ≠ [] := by
    intro h
    have h3 : f.x = [ts] := by rw [← hconsF, h]
    rw [h3] at hlf
    have : ts = te := by simpa using hlf
    exact absurd this (ne_of_lt hlt)
  have hlastFt : f.x.tail.getLast? = some te := by
    have h4 := hlf
    rw [← hconsF, getLast?_cons_of_ne_nil htailF_ne] at h4
    exact h4
  obtain ⟨vf, yf, hyf⟩ : ∃ vf yf, f.y = vf :: yf := by
    cases hyy : f.y with
    | nil =>
      rw [hyy] at hnf
      have h4 : f.x.length = 1 := by simpa using hnf
      have h5 : f.x.tail.length = 0 := by
        rw [← hconsF] at h4
        simpa using h4
      exact absurd (List.length_eq_zero.mp h5) htailF_ne
    | cons vf yf => exact ⟨vf, yf, rfl⟩
  have hchF2 : (ts :: f.x.tail).Chain' (· < ·) := by
    rw [hconsF]
    exact hcf
  have hsub' : ∀ u ∈ f.x.tail, u ∈ zs.tail := by
    intro u hu
    have hu_fx : u ∈ f.x := by
      rw [← hconsF]
      exact List.mem_cons.mpr (Or.inr hu)
    have hu_zs : u ∈ zs := hsubZ u hu_fx
    have hts_u : ts < u :=
      (List.pairwise_cons.mp (List.chain'_iff_pairwise.mp hchF2)).1 u hu
    rw [← hconsZ] at hu_zs
    rcases List.mem_cons.mp hu_zs with rfl | h
    · exact absurd hts_u (lt_irrefl u)
    · exact h
  have hlen' : f.x.tail.length = yf.length + 1 := by
    have h4 := hnf
    rw [← hconsF, hyf] at h4
    simpa using h4
  have hchFt : f.x.tail.Chain' (· < ·) := hchF2.tail
  have hmap : zs.dropLast.map f.eval =
      (ts :: zs.tail).dropLast.map (evalSeg f.x.tail (vf :: yf)) := by
    rw [hconsZ]
    apply List.map_congr_left
    intro u _
    show f.eval u = evalSeg f.x.tail (vf :: yf) u
    rw [show f.eval u = evalSeg f.x.tail f.y u from rfl, hyf]
  rw [hmap]
  have hres := sample_int te a b zs.tail f.x.tail yf ts vf hchZ2 hchFt hsub' hlen' hlastZt hlastFt
  rw [hres]
  show segInt ts f.x.tail (vf :: yf) a b = segInt (f.x.headD 0) f.x.tail f.y a b
  rw [headD_eq_of_head? 0 hhf, hyf]

theorem eval_add {ts te : ℚ} {f g : PieceWiseConstFunc}
    (hf : PwcWf ts te f) (hg : PwcWf ts te g) (hlt : ts < te)
    {t : ℚ} (h1 : ts ≤ t) (h2 : t < te) :
    (f.add g).eval t = f.eval t + g.eval t := by
  obtain ⟨hcA, hhA, hlA, hlenA⟩ := wf_add hf hg
  have hhU : (sortedUnion (f.x ++ g.x)).head? = some ts := hhA
  have hlU : (sortedUnion (f.x ++ g.x)).getLast? = some te := hlA
  have hsubF : ∀ u ∈ f.x, u ∈ sortedUnion (f.x ++ g.x) := fun u hu =>
    mem_sortedUnion.mpr (List.mem_append.mpr (Or.inl hu))
  have hsubG : ∀ u ∈ g.x, u ∈ sortedUnion (f.x ++ g.x) := fun u hu =>
    mem_sortedUnion.mpr (List.mem_append.mpr (Or.inr hu))
  show evalSeg (sortedUnion (f.x ++ g.x)).tail
      ((sortedUnion (f.x ++ g.x)).dropLast.map (fun u => f.eval u + g.eval u)) t =
    f.eval t + g.eval t
  rw [evalSeg_map_add f.eval g.eval (sortedUnion (f.x ++ g.x)).tail
    (sortedUnion (f.x ++ g.x)).dropLast t]
  rw [sample_pwc_eval hf hlt chain'_sortedUnion hhU hlU hsubF h1 h2,
    sample_pwc_eval hg hlt chain'_sortedUnion hhU hlU hsubG h1 h2]

theorem integralOn_add {ts te : ℚ} {f g : PieceWiseConstFunc}
    (hf : PwcWf ts te f) (hg : PwcWf ts te g) (hlt : ts < te) (a b : ℚ) :
    (f.add g).integralOn a b = f.integralOn a b + g.integralOn a b := by
  obtain ⟨hcA, hhA, hlA, hlenA⟩ := wf_add hf hg
  have hhU : (sortedUnion (f.x ++ g.x)).head? = some ts := hhA
  have hlU : (sortedUnion (f.x ++ g.x)).getLast? = some te := hlA
  have hsubF : ∀ u ∈ f.x, u ∈ sortedUnion (f.x ++ g.x) := fun u hu =>
    mem_sortedUnion.mpr (List.mem_append.mpr (Or.inl hu))
  have hsubG : ∀ u ∈ g.x, u ∈ sortedUnion (f.x ++ g.x) := fun u hu =>
    mem_sortedUnion.mpr (List.mem_append.mpr (Or.inr hu))
  show segInt ((sortedUnion (f.x ++ g.x)).headD 0) (sortedUnion (f.x ++ g.x)).tail
      ((sortedUnion (f.x ++ g.x)).dropLast.map (fun u => f.eval u + g.eval u)) a b =
    f.integralOn a b + g.integralOn a b
  rw [headD_eq_of_head? 0 hhU]
  rw [segInt_map_add f.eval g.eval (sortedUnion (f.x ++ g.x)).tail ts
    (sortedUnion (f.x ++ g.x)).dropLast a b]
  rw [sample_pwc_int hf hlt chain'_sortedUnion hhU hlU hsubF a b,
    sample_pwc_int hg hlt chain'_sortedUnion hhU hlU hsubG a b]

theorem eval_mul_scalar (f : PieceWiseConstFunc) (c t : ℚ) :
    (f.mul_scalar c).eval t = f.eval t * c :=
  evalSeg_map_mul c f.x.tail f.y t

theorem integralOn_mul_scalar (f : PieceWiseConstFunc) (c a b : ℚ) :
    (f.mul_scalar c).integralOn a b = f.integralOn a b * c :=
  segInt_map_mul c f.x.tail (f.x.headD 0) f.y a b

theorem avrg_mul_scalar (f : PieceWiseConstFunc) (c : ℚ) (interval : Option (ℚ × ℚ)) :
    (f.mul_scalar c).avrg interval = (f.avrg interval).map (fun r => r * c) := by
  have hx : (f.mul_scalar c).x = f.x := rfl
  cases interval with
  | none =>
    simp only [PieceWiseConstFunc.avrg, hx]
    split_ifs with h
    · simp only [Except.map]
      rw [integralOn_mul_scalar]
      rw [mul_div_right_comm]
    · rfl
  | some ab =>
    simp only [PieceWiseConstFunc.avrg, hx]
    split_ifs with h
    · simp only [Except.map]
      rw [integralOn_mul_scalar]
      rw [mul_div_right_comm]
    · rfl

theorem foldl_add_wf {ts te : ℚ} :
    ∀ (ps : List PieceWiseConstFunc) (acc : PieceWiseConstFunc),
      PwcWf ts te acc → (∀ p ∈ ps, PwcWf ts te p) →
      PwcWf ts te (ps.foldl PieceWiseConstFunc.add acc) := by
  intro ps
  induction ps with
  | nil => intro acc h _; exact h
  | cons p ps ih =>
    intro acc hacc hall
    exact ih (acc.add p) (wf_add hacc (hall p (List.mem_cons_self p ps)))
      (fun q hq => hall q (List.mem_cons.mpr (Or.inr hq)))

theorem foldl_add_nonneg :
    ∀ (ps : List PieceWiseConstFunc) (acc : PieceWiseConstFunc),
      NonnegVals acc → (∀ p ∈ ps, NonnegVals p) →
      NonnegVals (ps.foldl PieceWiseConstFunc.add acc) := by
  intro ps
  induction ps with
  | nil => intro acc h _; exact h
  | cons p ps ih =>
    intro acc hacc hall
    exact ih (acc.add p) (nonneg_add hacc (hall p (List.mem_cons_self p ps)))
      (fun q hq => hall q (List.mem_cons.mpr (Or.inr hq)))

theorem foldl_add_eval {ts te : ℚ} (hlt : ts < te) {t : ℚ} (h1 : ts ≤ t) (h2 : t < te) :
    ∀ (ps : List PieceWiseConstFunc) (acc : PieceWiseConstFunc),
      PwcWf ts te acc → (∀ p ∈ ps, PwcWf ts te p) →
      (ps.foldl PieceWiseConstFunc.add acc).eval t =
        acc.eval t + (ps.map (fun p => p.eval t)).sum := by
  intro ps
  induction ps with
  | nil => intro acc _ _; simp
  | cons p ps ih =>
    intro acc hacc hall
    have hp := hall p (List.mem_cons_self p ps)
    rw [List.foldl_cons,
      ih (acc.add p) (wf_add hacc hp) (fun q hq => hall q (List.mem_cons.mpr (Or.inr hq))),
      eval_add hacc hp hlt h1 h2, List.map_cons, List.sum_cons]
    ring

theorem foldl_add_integralOn {ts te : ℚ} (hlt : ts < te) (a b : ℚ) :
    ∀ (ps : List PieceWiseConstFunc) (acc : PieceWiseConstFunc),
      PwcWf ts te acc → (∀ p ∈ ps, PwcWf ts te p) →
      (ps.foldl PieceWiseConstFunc.add acc).integralOn a b =
        acc.integralOn a b + (ps.map (fun p => p.integralOn a b)).sum := by
  intro ps
  induction ps with
  | nil => intro acc _ _; simp
  | cons p ps ih =>
    intro acc hacc hall
    have hp := hall p (List.mem_cons_self p ps)
    rw [List.foldl_cons,
      ih (acc.add p) (wf_add hacc hp) (fun q hq => hall q (List.mem_cons.mpr (Or.inr hq))),
      integralOn_add hacc hp hlt a b, List.map_cons, List.sum_cons]
    ring

theorem eval_zeroProfile (ts te t : ℚ) : (zeroProfile ts te).eval t = 0 := by
  show evalSeg [te] [0] t = 0
  rw [evalSeg_cons]
  split_ifs
  · rfl
  · rfl

theorem integralOn_zeroProfile (ts te a b : ℚ) : (zeroProfile ts te).integralOn a b = 0 := by
  show segInt ts [te] [0] a b = 0
  rw [segInt_cons]
  show 0 * max 0 (min te b - max ts a) + segInt te [] [] a b = 0
  rw [zero_mul]
  show 0 + 0 = 0
  rw [add_zero]

/-! ### Engine lemmas -/

theorem nuAt_nonneg : ∀ (l : List ℚ), l.Chain' (· < ·) → ∀ t, 0 ≤ nuAt l t := by
  intro l
  induction l with
  | nil => intro _ t; simp [nuAt]
  | cons a l ih =>
    intro hch t
    cases l with
    | nil => simp [nuAt]
    | cons b rest =>
      show 0 ≤ if t < b then b - a else nuAt (b :: rest) t
      split_ifs
      · have hab : a < b := (List.chain'_cons.mp hch).1
        linarith
      · exact ih hch.tail t

theorem isiRatio_nonneg {n1 n2 : ℚ} (h1 : 0 ≤ n1) (h2 : 0 ≤ n2) : 0 ≤ isiRatio n1 n2 :=
  div_nonneg (abs_nonneg _) (le_trans h1 (le_max_left n1 n2))

theorem isiValueAt_nonneg (s1 s2 : List ℚ) (ts te t : ℚ) : 0 ≤ isiValueAt s1 s2 ts te t :=
  isiRatio_nonneg (nuAt_nonneg _ chain'_sortedUnion t) (nuAt_nonneg _ chain'_sortedUnion t)

theorem gsne_bounds {st : SpikeTrain} (hv : st.valid) (hle : st.t_start ≤ st.t_end) :
    ∀ s ∈ st.get_spikes_non_empty, st.t_start ≤ s ∧ s ≤ st.t_end := by
  intro s hs
  rcases hsp : st.spikes with _ | ⟨a, l⟩
  · have he : st.get_spikes_non_empty = [st.t_start, st.t_end] := by
      unfold SpikeTrain.get_spikes_non_empty
      rw [hsp]
    rw [he] at hs
    rcases List.mem_cons.mp hs with rfl | hs2
    · exact ⟨le_refl _, hle⟩
    · rcases List.mem_cons.mp hs2 with rfl | hs3
      · exact ⟨hle, le_refl _⟩
      · cases hs3
  · have he : st.get_spikes_non_empty = st.spikes := by
      unfold SpikeTrain.get_spikes_non_empty
      rw [hsp]
    rw [he] at hs
    exact hv.2 s hs

theorem wf_biProfile {st1 st2 : SpikeTrain} {ts te : ℚ}
    (h1s : st1.t_start = ts) (h1e : st1.t_end = te)
    (h2s : st2.t_start = ts) (h2e : st2.t_end = te)
    (hlt : ts < te) (hv1 : st1.valid) (hv2 : st2.valid) :
    PwcWf ts te (biProfile st1 st2) := by
  have hb1 : ∀ s ∈ st1.get_spikes_non_empty, ts ≤ s ∧ s ≤ te := by
    intro s hs
    have := gsne_bounds hv1 (by rw [h1s, h1e]; exact le_of_lt hlt) s hs
    rw [h1s, h1e] at this
    exact this
  have hb2 : ∀ s ∈ st2.get_spikes_non_empty, ts ≤ s ∧ s ≤ te := by
    intro s hs
    have := gsne_bounds hv2 (by rw [h2s, h2e]; exact le_of_lt hlt) s hs
    rw [h2s, h2e] at this
    exact this
  have hxdef : (biProfile st1 st2).x =
      sortedUnion (ts :: te :: (st1.get_spikes_non_empty ++ st2.get_spikes_non_empty)) := by
    show isiTimes st1.get_spikes_non_empty st2.get_spikes_non_empty st1.t_start st1.t_end = _
    rw [h1s, h1e]
    rfl
  have hmem : ∀ u ∈ ts :: te :: (st1.get_spikes_non_empty ++ st2.get_spikes_non_empty),
      ts ≤ u ∧ u ≤ te := by
    intro u hu
    rcases List.mem_cons.mp hu with rfl | hu2
    · exact ⟨le_refl u, le_of_lt hlt⟩
    · rcases List.mem_cons.mp hu2 with rfl | hu3
      · exact ⟨le_of_lt hlt, le_refl u⟩
      · rcases List.mem_append.mp hu3 with h | h
        · exact hb1 u h
        · exact hb2 u h
  have hts_mem : ts ∈ sortedUnion (ts :: te :: (st1.get_spikes_non_empty ++
      st2.get_spikes_non_empty)) :=
    mem_sortedUnion.mpr (List.mem_cons_self _ _)
  have hte_mem : te ∈ sortedUnion (ts :: te :: (st1.get_spikes_non_empty ++
      st2.get_spikes_non_empty)) :=
    mem_sortedUnion.mpr (List.mem_cons.mpr (Or.inr (List.mem_cons_self _ _)))
  refine ⟨?_, ?_, ?_, ?_⟩
  · rw [hxdef]
    exact chain'_sortedUnion
  · rw [hxdef]
    exact head?_eq_of_pairwise pairwise_sortedUnion hts_mem
      (fun y hy => (hmem y (mem_sortedUnion.mp hy)).1)
  · rw [hxdef]
    exact getLast?_eq_of_pairwise pairwise_sortedUnion hte_mem
      (fun y hy => (hmem y (mem_sortedUnion.mp hy)).2)
  · show (biProfile st1 st2).x.length =
      ((biProfile st1 st2).x.dropLast.map (isiValueAt st1.get_spikes_non_empty
        st2.get_spikes_non_empty st1.t_start st1.t_end)).length + 1
    rw [List.length_map, List.length_dropLast]
    have : (biProfile st1 st2).x ≠ [] := by
      rw [hxdef]
      exact List.ne_nil_of_mem hts_mem
    have hpos : 0 < (biProfile st1 st2).x.length := List.length_pos.mpr this
    omega

theorem nonneg_biProfile (st1 st2 : SpikeTrain) : NonnegVals (biProfile st1 st2) := by
  intro v hv
  have hv2 : v ∈ ((isiTimes st1.get_spikes_non_empty st2.get_spikes_non_empty
      st1.t_start st1.t_end).dropLast).map (isiValueAt st1.get_spikes_non_empty
        st2.get_spikes_non_empty st1.t_start st1.t_end) := hv
  rcases List.mem_map.mp hv2 with ⟨u, _, rfl⟩
  exact isiValueAt_nonneg _ _ _ _ u

theorem isiValuesC_eq (s1 s2 : List ℚ) (ts te : ℚ) :
    ∀ l : List ℚ, isiValuesC s1 s2 ts te l = l.dropLast.map (isiValueAt s1 s2 ts te) := by
  intro l
  induction l with
  | nil => rfl
  | cons a l ih =>
    cases l with
    | nil => rfl
    | cons b rest =>
      show isiValueAt s1 s2 ts te a :: isiValuesC s1 s2 ts te (b :: rest) =
        ((a :: b :: rest).dropLast).map (isiValueAt s1 s2 ts te)
      rw [ih]
      rfl

theorem isi_profile_bi_ok (avail : Bool) {st1 st2 : SpikeTrain}
    (hts : st1.t_start = st2.t_start) (hte : st1.t_end = st2.t_end) :
    isi_profile_bi avail st1 st2 = .ok (biProfile st1 st2) := by
  unfold isi_profile_bi
  rw [if_pos ⟨hts, hte⟩]
  cases avail with
  | false => rfl
  | true =>
    have hv : isi_profile_impl_c st1.get_spikes_non_empty st2.get_spikes_non_empty
        st1.t_start st1.t_end =
        isi_profile_impl_py st1.get_spikes_non_empty st2.get_spikes_non_empty
          st1.t_start st1.t_end := by
      show (isiTimes st1.get_spikes_non_empty st2.get_spikes_non_empty
          st1.t_start st1.t_end,
        isiValuesC st1.get_spikes_non_empty st2.get_spikes_non_empty
          st1.t_start st1.t_end
          (isiTimes st1.get_spikes_non_empty st2.get_spikes_non_empty
            st1.t_start st1.t_end)) =
        (isiTimes st1.get_spikes_non_empty st2.get_spikes_non_empty
          st1.t_start st1.t_end,
        (isiTimes st1.get_spikes_non_empty st2.get_spikes_non_empty
          st1.t_start st1.t_end).dropLast.map
          (isiValueAt st1.get_spikes_non_empty st2.get_spikes_non_empty
            st1.t_start st1.t_end))
      rw [isiValuesC_eq]
    show Except.ok (PieceWiseConstFunc.mk
      (isi_profile_impl_c st1.get_spikes_non_empty st2.get_spikes_non_empty
        st1.t_start st1.t_end).1
      (isi_profile_impl_c st1.get_spikes_non_empty st2.get_spikes_non_empty
        st1.t_start st1.t_end).2) = Except.ok (biProfile st1 st2)
    rw [hv]
    rfl

theorem isi_profile_bi_err (avail : Bool) {st1 st2 : SpikeTrain}
    (h : ¬(st1.t_start = st2.t_start ∧ st1.t_end = st2.t_end)) :
    isi_profile_bi avail st1 st2 = .error .IncompatibleIntervalError := by
  unfold isi_profile_bi
  rw [if_neg h]

theorem segInt_full_eq (s1 s2 : List ℚ) (ts te : ℚ) :
    ∀ l : List ℚ, l.Chain' (· < ·) → (∀ u ∈ l, ts ≤ u ∧ u ≤ te) →
      segInt (l.headD 0) l.tail (l.dropLast.map (isiValueAt s1 s2 ts te)) ts te =
        isiDistAux s1 s2 ts te l := by
  intro l
  induction l with
  | nil => intro _ _; rfl
  | cons a l ih =>
    intro hch hbd
    cases l with
    | nil => rfl
    | cons b rest =>
      have hab : a < b := (List.chain'_cons.mp hch).1
      have ha := hbd a (List.mem_cons_self a (b :: rest))
      have hb := hbd b (List.mem_cons.mpr (Or.inr (List.mem_cons_self b rest)))
      show segInt a (b :: rest)
        (isiValueAt s1 s2 ts te a :: (b :: rest).dropLast.map (isiValueAt s1 s2 ts te))
        ts te = isiDistAux s1 s2 ts te (a :: b :: rest)
      rw [segInt_cons]
      have hmin : min b te = b := min_eq_left hb.2
      have hmax : max a ts = a := max_eq_left ha.1
      rw [hmin, hmax]
      have hlen0 : max 0 (b - a) = b - a := max_eq_right (by linarith)
      rw [hlen0]
      show isiValueAt s1 s2 ts te a * (b - a) +
          segInt b rest ((b :: rest).dropLast.map (isiValueAt s1 s2 ts te)) ts te =
        isiValueAt s1 s2 ts te a * (b - a) + isiDistAux s1 s2 ts te (b :: rest)
      congr 1
      have hres := ih hch.tail
        (fun u hu => hbd u (List.mem_cons.mpr (Or.inr hu)))
      simpa using hres

theorem avrg_none_of_wf {ts te : ℚ} {f : PieceWiseConstFunc}
    (hf : PwcWf ts te f) (hlt : ts < te) :
    f.avrg none = .ok (f.integralOn ts te / (te - ts)) := by
  obtain ⟨_, hh, hl, _⟩ := hf
  show (if f.x.headD 0 < f.x.getLastD 0 then
      Except.ok (f.integralOn (f.x.headD 0) (f.x.getLastD 0) /
        (f.x.getLastD 0 - f.x.headD 0))
    else Except.error PySpikeError.DomainError) = Except.ok (f.integralOn ts te / (te - ts))
  rw [headD_eq_of_head? 0 hh, getLastD_eq_of_getLast? 0 hl, if_pos hlt]

theorem avrg_some_of_wf {ts te : ℚ} {f : PieceWiseConstFunc}
    (hf : PwcWf ts te f) {a b : ℚ} (hab : ts ≤ a ∧ a < b ∧ b ≤ te) :
    f.avrg (some (a, b)) = .ok (f.integralOn a b / (b - a)) := by
  obtain ⟨_, hh, hl, _⟩ := hf
  show (if f.x.headD 0 ≤ a ∧ a < b ∧ b ≤ f.x.getLastD 0 then
      Except.ok (f.integralOn a b / (b - a))
    else Except.error PySpikeError.DomainError) = Except.ok (f.integralOn a b / (b - a))
  rw [headD_eq_of_head? 0 hh, getLastD_eq_of_getLast? 0 hl, if_pos hab]

/-! ### Bivariate distance characterization -/

theorem isi_distance_impl_eq {st1 st2 : SpikeTrain}
    (h2s : st2.t_start = st1.t_start) (h2e : st2.t_end = st1.t_end)
    (hlt : st1.t_start < st1.t_end) (hv1 : st1.valid) (hv2 : st2.valid) :
    isi_distance_impl st1.get_spikes_non_empty st2.get_spikes_non_empty
      st1.t_start st1.t_end =
      (biProfile st1 st2).integralOn st1.t_start st1.t_end /
        (st1.t_end - st1.t_start) := by
  have hb1 := gsne_bounds hv1 (le_of_lt hlt)
  have hb2 : ∀ s ∈ st2.get_spikes_non_empty, st1.t_start ≤ s ∧ s ≤ st1.t_end := by
    intro s hs
    have hr := gsne_bounds hv2 (by rw [h2s, h2e]; exact le_of_lt hlt) s hs
    rw [h2s, h2e] at hr
    exact hr
  have hbd : ∀ u ∈ isiTimes st1.get_spikes_non_empty st2.get_spikes_non_empty
      st1.t_start st1.t_end, st1.t_start ≤ u ∧ u ≤ st1.t_end := by
    intro u hu
    have hu2 := mem_sortedUnion.mp hu
    rcases List.mem_cons.mp hu2 with rfl | hu3
    · exact ⟨le_refl _, le_of_lt hlt⟩
    · rcases List.mem_cons.mp hu3 with rfl | hu4
      · exact ⟨le_of_lt hlt, le_refl _⟩
      · rcases List.mem_append.mp hu4 with h | h
        · exact hb1 u h
        · exact hb2 u h
  have hkey := segInt_full_eq st1.get_spikes_non_empty st2.get_spikes_non_empty
    st1.t_start st1.t_end
    (isiTimes st1.get_spikes_non_empty st2.get_spikes_non_empty st1.t_start st1.t_end)
    chain'_sortedUnion hbd
  show isiDistAux st1.get_spikes_non_empty st2.get_spikes_non_empty st1.t_start st1.t_end
      (isiTimes st1.get_spikes_non_empty st2.get_spikes_non_empty st1.t_start st1.t_end) /
      (st1.t_end - st1.t_start) =
    (biProfile st1 st2).integralOn st1.t_start st1.t_end / (st1.t_end - st1.t_start)
  rw [← hkey]
  rfl

/-- Under compatibility and a valid averaging request, the bivariate distance
is the averaged integral of the pair profile over the resolved interval, on
every backend path. -/
theorem isi_distance_bi_ok (avail : Bool) {st1 st2 : SpikeTrain}
    (h2s : st2.t_start = st1.t_start) (h2e : st2.t_end = st1.t_end)
    (hlt : st1.t_start < st1.t_end) (hv1 : st1.valid) (hv2 : st2.valid)
    (interval : Option (ℚ × ℚ)) (hint : intervalOk st1.t_start st1.t_end interval) :
    isi_distance_bi avail st1 st2 interval =
      .ok ((biProfile st1 st2).integralOn (resolvedIv st1.t_start st1.t_end interval).1
          (resolvedIv st1.t_start st1.t_end interval).2 /
        ((resolvedIv st1.t_start st1.t_end interval).2 -
          (resolvedIv st1.t_start st1.t_end interval).1)) := by
  have hwf : PwcWf st1.t_start st1.t_end (biProfile st1 st2) :=
    wf_biProfile rfl rfl h2s h2e hlt hv1 hv2
  cases interval with
  | none =>
    cases avail with
    | true =>
      show Except.ok (isi_distance_impl st1.get_spikes_non_empty st2.get_spikes_non_empty
        st1.t_start st1.t_end) = _
      rw [isi_distance_impl_eq h2s h2e hlt hv1 hv2]
      rfl
    | false =>
      show (isi_profile_bi false st1 st2).bind (fun p => p.avrg none) = _
      rw [isi_profile_bi_ok false h2s.symm h2e.symm]
      show (biProfile st1 st2).avrg none = _
      rw [avrg_none_of_wf hwf hlt]
      rfl
  | some ab =>
    obtain ⟨a, b⟩ := ab
    show (isi_profile_bi avail st1 st2).bind (fun p => p.avrg (some (a, b))) = _
    rw [isi_profile_bi_ok avail h2s.symm h2e.symm]
    show (biProfile st1 st2).avrg (some (a, b)) = _
    rw [avrg_some_of_wf hwf hint]
    rfl

/-! ### List helpers for the aggregation layer -/

theorem listPairs_mem {α : Type} :
    ∀ (l : List α) (pr : α × α), pr ∈ listPairs l → pr.1 ∈ l ∧ pr.2 ∈ l := by
  intro l
  induction l with
  | nil => intro pr h; cases h
  | cons a rest ih =>
    intro pr h
    rcases List.mem_append.mp h with h1 | h2
    · rcases List.mem_map.mp h1 with ⟨b, hb, rfl⟩
      exact ⟨List.mem_cons_self a rest, List.mem_cons.mpr (Or.inr hb)⟩
    · have hr := ih pr h2
      exact ⟨List.mem_cons.mpr (Or.inr hr.1), List.mem_cons.mpr (Or.inr hr.2)⟩

theorem listPairs_sq {α : Type} :
    ∀ l : List α, 2 * (listPairs l).length + l.length = l.length * l.length := by
  intro l
  induction l with
  | nil => rfl
  | cons a rest ih =>
    have hlen : (listPairs (a :: rest)).length =
        rest.length + (listPairs rest).length := by
      show (rest.map (fun b => (a, b)) ++ listPairs rest).length = _
      rw [List.length_append, List.length_map]
    rw [hlen]
    simp only [List.length_cons]
    have hr : (rest.length + 1) * (rest.length + 1) =
        rest.length * rest.length + 2 * rest.length + 1 := by ring
    rw [hr]
    linarith [ih]

theorem listPairs_len_pos {α : Type} {l : List α} (h : 2 ≤ l.length) :
    0 < (listPairs l).length := by
  have h1 : l.length * 2 ≤ l.length * l.length := Nat.mul_le_mul_left _ h
  have h2 := listPairs_sq l
  set q := l.length * l.length with hq
  omega

theorem sum_map_div {α : Type} (l : List α) (F : α → ℚ) (c : ℚ) :
    (l.map (fun u => F u / c)).sum = (l.map F).sum / c := by
  induction l with
  | nil => simp
  | cons a l ih =>
    simp only [List.map_cons, List.sum_cons, ih]
    rw [add_div]

theorem exceptMap_ok {α β : Type} (f : α → Except PySpikeError β) (g : α → β) :
    ∀ l : List α, (∀ x ∈ l, f x = .ok (g x)) → exceptMap f l = .ok (l.map g) := by
  intro l
  induction l with
  | nil => intro _; rfl
  | cons a l ih =>
    intro h
    show (f a).bind (fun b => (exceptMap f l).bind (fun bs => pure (b :: bs))) = _
    rw [h a (List.mem_cons_self a l), ih (fun x hx => h x (List.mem_cons.mpr (Or.inr hx)))]
    rfl

theorem headD_mem {α : Type} [Inhabited α] {l : List α} (h : l ≠ []) :
    l.headD default ∈ l := by
  cases l with
  | nil => exact absurd rfl h
  | cons a l => exact List.mem_cons_self a l

/-! ### Multivariate characterization -/

theorem isi_profile_multi_ok (avail : Bool) (sts : List SpikeTrain)
    (indices : Option (List ℕ)) {ts te : ℚ}
    (hlen : 2 ≤ (selectTrains sts indices).length)
    (hcom : ∀ st ∈ selectTrains sts indices, st.t_start = ts ∧ st.t_end = te ∧ st.valid)
    (hlt : ts < te) :
    isi_profile_multi avail sts indices =
      .ok ((((listPairs (selectTrains sts indices)).map
            (fun pr => biProfile pr.1 pr.2)).foldl PieceWiseConstFunc.add
          (zeroProfile ts te)).mul_scalar
        (1 / ((listPairs (selectTrains sts indices)).length : ℚ))) := by
  have hne : selectTrains sts indices ≠ [] := by
    intro h
    rw [h] at hlen
    simp at hlen
  have h0 := hcom _ (headD_mem hne)
  have hpair : ∀ pr ∈ listPairs (selectTrains sts indices),
      isi_profile_bi avail pr.1 pr.2 = .ok (biProfile pr.1 pr.2) := by
    intro pr hpr
    have hm := listPairs_mem _ pr hpr
    have h1 := hcom _ hm.1
    have h2 := hcom _ hm.2
    exact isi_profile_bi_ok avail (by rw [h1.1, h2.1]) (by rw [h1.2.1, h2.2.1])
  simp only [isi_profile_multi]
  rw [if_neg (not_lt.mpr hlen)]
  rw [exceptMap_ok _ (fun pr => biProfile pr.1 pr.2) _ hpair]
  show Except.ok ((((listPairs (selectTrains sts indices)).map
      (fun pr => biProfile pr.1 pr.2)).foldl PieceWiseConstFunc.add
      (zeroProfile ((selectTrains sts indices).headD default).t_start
        ((selectTrains sts indices).headD default).t_end)).mul_scalar
    (1 / ((listPairs (selectTrains sts indices)).length : ℚ))) = _
  rw [h0.1, h0.2.1]

theorem isi_distance_multi_ok (avail : Bool) (sts : List SpikeTrain)
    (indices : Option (List ℕ)) (interval : Option (ℚ × ℚ)) {ts te : ℚ}
    (hlen : 2 ≤ (selectTrains sts indices).length)
    (hcom : ∀ st ∈ selectTrains sts indices, st.t_start = ts ∧ st.t_end = te ∧ st.valid)
    (hlt : ts < te) (hint : intervalOk ts te interval) :
    isi_distance_multi avail sts indices interval =
      .ok (((listPairs (selectTrains sts indices)).map (fun pr =>
          (biProfile pr.1 pr.2).integralOn (resolvedIv ts te interval).1
            (resolvedIv ts te interval).2 /
          ((resolvedIv ts te interval).2 - (resolvedIv ts te interval).1))).sum /
        ((listPairs (selectTrains sts indices)).length : ℚ)) := by
  have hpair : ∀ pr ∈ listPairs (selectTrains sts indices),
      isi_distance_bi avail pr.1 pr.2 interval =
        .ok ((biProfile pr.1 pr.2).integralOn (resolvedIv ts te interval).1
            (resolvedIv ts te interval).2 /
          ((resolvedIv ts te interval).2 - (resolvedIv ts te interval).1)) := by
    intro pr hpr
    have hm := listPairs_mem _ pr hpr
    have h1 := hcom _ hm.1
    have h2 := hcom _ hm.2
    have hres := isi_distance_bi_ok avail (by rw [h1.1, h2.1]) (by rw [h1.2.1, h2.2.1])
      (by rw [h1.1, h1.2.1]; exact hlt) h1.2.2 h2.2.2 interval
      (by rw [h1.1, h1.2.1]; exact hint)
    rw [h1.1, h1.2.1] at hres
    exact hres
  simp only [isi_distance_multi]
  rw [if_neg (not_lt.mpr hlen)]
  rw [exceptMap_ok _ (fun pr =>
    (biProfile pr.1 pr.2).integralOn (resolvedIv ts te interval).1
      (resolvedIv ts te interval).2 /
    ((resolvedIv ts te interval).2 - (resolvedIv ts te interval).1)) _ hpair]
  rfl

theorem avrg_mul_scalar_ok {f : PieceWiseConstFunc} {c : ℚ}
    {interval : Option (ℚ × ℚ)} {r : ℚ} (h : f.avrg interval = .ok r) :
    (f.mul_scalar c).avrg interval = .ok (r * c) := by
  rw [avrg_mul_scalar, h]
  rfl

theorem avrg_ok_of_wf {ts te : ℚ} {f : PieceWiseConstFunc}
    (hf : PwcWf ts te f) (hlt : ts < te)
    (interval : Option (ℚ × ℚ)) (hint : intervalOk ts te interval) :
    f.avrg interval = .ok (f.integralOn (resolvedIv ts te interval).1
        (resolvedIv ts te interval).2 /
      ((resolvedIv ts te interval).2 - (resolvedIv ts te interval).1)) := by
  cases interval with
  | none => exact avrg_none_of_wf hf hlt
  | some ab =>
    obtain ⟨a, b⟩ := ab
    exact avrg_some_of_wf hf hint

/-! ### Claim theorems -/

/-- C1: for every pair of spike trains with equal `t_start` and `t_end` (and a
nondegenerate domain), the bivariate distance with `interval = none` — which on
the optimized backend takes the distance-only fast path that never builds the
profile — equals `profile(a, b).avrg none`, exactly (hence within any floating
tolerance): the fast path and the profile-averaging path agree. -/
theorem C1_distance_fast_path_eq_profile_average (avail : Bool) (st1 st2 : SpikeTrain)
    (hts : st1.t_start = st2.t_start) (hte : st1.t_end = st2.t_end)
    (hlt : st1.t_start < st1.t_end) (hv1 : st1.valid) (hv2 : st2.valid) :
    isi_distance_bi avail st1 st2 none =
      (isi_profile_bi avail st1 st2).bind (fun p => p.avrg none) := by
  have hwf : PwcWf st1.t_start st1.t_end (biProfile st1 st2) :=
    wf_biProfile rfl rfl hts.symm hte.symm hlt hv1 hv2
  rw [isi_distance_bi_ok avail hts.symm hte.symm hlt hv1 hv2 none trivial]
  rw [isi_profile_bi_ok avail hts hte]
  show _ = (biProfile st1 st2).avrg none
  rw [avrg_none_of_wf hwf hlt]
  rfl

theorem C1_witness :
    isi_distance_bi true ⟨[1, 2, 3], 0, 4⟩ ⟨[3/2, 5/2], 0, 4⟩ none =
      (isi_profile_bi true ⟨[1, 2, 3], 0, 4⟩ ⟨[3/2, 5/2], 0, 4⟩).bind
        (fun p => p.avrg none) :=
  C1_distance_fast_path_eq_profile_average true _ _ rfl rfl (by norm_num)
    (by constructor <;> norm_num [List.pairwise_cons])
    (by constructor <;> norm_num [List.pairwise_cons])

/-- C2: for every collection of at least 2 selected spike trains sharing one
common (nondegenerate) interval and any valid averaging interval, the
multivariate scalar distance (sum of pairwise bivariate distances divided by
`M`) equals the average of the multivariate profile over that same interval,
exactly. -/
theorem C2_distance_multi_eq_profile_multi_average (avail : Bool)
    (sts : List SpikeTrain) (indices : Option (List ℕ)) (interval : Option (ℚ × ℚ))
    (ts te : ℚ)
    (hlen : 2 ≤ (selectTrains sts indices).length)
    (hcom : ∀ st ∈ selectTrains sts indices, st.t_start = ts ∧ st.t_end = te ∧ st.valid)
    (hlt : ts < te) (hint : intervalOk ts te interval) :
    isi_distance_multi avail sts indices interval =
      (isi_profile_multi avail sts indices).bind (fun p => p.avrg interval) := by
  have hwfs : ∀ p ∈ (listPairs (selectTrains sts indices)).map
      (fun pr => biProfile pr.1 pr.2), PwcWf ts te p := by
    intro p hp
    rcases List.mem_map.mp hp with ⟨pr, hpr, rfl⟩
    have hm := listPairs_mem _ pr hpr
    have h1 := hcom _ hm.1
    have h2 := hcom _ hm.2
    exact wf_biProfile h1.1 h1.2.1 h2.1 h2.2.1 hlt h1.2.2 h2.2.2
  have hwfz : PwcWf ts te (zeroProfile ts te) := wf_zeroProfile hlt
  have hwfF : PwcWf ts te (((listPairs (selectTrains sts indices)).map
      (fun pr => biProfile pr.1 pr.2)).foldl PieceWiseConstFunc.add (zeroProfile ts te)) :=
    foldl_add_wf _ _ hwfz hwfs
  rw [isi_distance_multi_ok avail sts indices interval hlen hcom hlt hint,
    isi_profile_multi_ok avail sts indices hlen hcom hlt]
  show _ = ((((listPairs (selectTrains sts indices)).map
      (fun pr => biProfile pr.1 pr.2)).foldl PieceWiseConstFunc.add
      (zeroProfile ts te)).mul_scalar
    (1 / ((listPairs (selectTrains sts indices)).length : ℚ))).avrg interval
  rw [avrg_mul_scalar_ok (avrg_ok_of_wf hwfF hlt interval hint)]
  congr 1
  rw [foldl_add_integralOn hlt (resolvedIv ts te interval).1 (resolvedIv ts te interval).2
    ((listPairs (selectTrains sts indices)).map (fun pr => biProfile pr.1 pr.2))
    (zeroProfile ts te) hwfz hwfs]
  rw [integralOn_zeroProfile, zero_add, List.map_map]
  rw [sum_map_div (listPairs (selectTrains sts indices))
    (fun pr => (biProfile pr.1 pr.2).integralOn (resolvedIv ts te interval).1
      (resolvedIv ts te interval).2)
    ((resolvedIv ts te interval).2 - (resolvedIv ts te interval).1)]
  simp only [Function.comp_def]
  ring

theorem C2_witness :
    isi_distance_multi true [⟨[1, 2, 3], 0, 4⟩, ⟨[1, 3], 0, 4⟩, ⟨[2], 0, 4⟩] none
        (some (1, 3)) =
      (isi_profile_multi true [⟨[1, 2, 3], 0, 4⟩, ⟨[1, 3], 0, 4⟩, ⟨[2], 0, 4⟩] none).bind
        (fun p => p.avrg (some (1, 3))) :=
  C2_distance_multi_eq_profile_multi_average true _ none _ 0 4 (by decide)
    (by
      intro st hst
      rcases List.mem_cons.mp hst with rfl | hst
      · exact ⟨rfl, rfl, by constructor <;> norm_num [List.pairwise_cons]⟩
      rcases List.mem_cons.mp hst with rfl | hst
      · exact ⟨rfl, rfl, by constructor <;> norm_num [List.pairwise_cons]⟩
      rcases List.mem_cons.mp hst with rfl | hst
      · exact ⟨rfl, rfl, by constructor <;> norm_num [List.pairwise_cons]⟩
      · cases hst)
    (by norm_num) ⟨by norm_num, by norm_num, by norm_num⟩

/-- C3: for every collection of at least 2 selected spike trains over one
common (nondegenerate) interval, the multivariate profile is, pointwise on the
domain, the sum of the bivariate profiles over all unordered pairs scaled by
`2 / (N (N - 1))`. -/
theorem C3_profile_multi_is_pair_average (avail : Bool) (sts : List SpikeTrain)
    (indices : Option (List ℕ)) (ts te : ℚ)
    (hlen : 2 ≤ (selectTrains sts indices).length)
    (hcom : ∀ st ∈ selectTrains sts indices, st.t_start = ts ∧ st.t_end = te ∧ st.valid)
    (hlt : ts < te) :
    ∃ P, isi_profile_multi avail sts indices = .ok P ∧
      ∀ t, ts ≤ t → t < te →
        P.eval t = 2 / (((selectTrains sts indices).length : ℚ) *
            (((selectTrains sts indices).length : ℚ) - 1)) *
          ((listPairs (selectTrains sts indices)).map
            (fun pr => (biProfile pr.1 pr.2).eval t)).sum := by
  refine ⟨_, isi_profile_multi_ok avail sts indices hlen hcom hlt, ?_⟩
  intro t h1 h2
  have hwfs : ∀ p ∈ (listPairs (selectTrains sts indices)).map
      (fun pr => biProfile pr.1 pr.2), PwcWf ts te p := by
    intro p hp
    rcases List.mem_map.mp hp with ⟨pr, hpr, rfl⟩
    have hm := listPairs_mem _ pr hpr
    have ha := hcom _ hm.1
    have hb := hcom _ hm.2
    exact wf_biProfile ha.1 ha.2.1 hb.1 hb.2.1 hlt ha.2.2 hb.2.2
  rw [eval_mul_scalar]
  rw [foldl_add_eval hlt h1 h2 _ _ (wf_zeroProfile hlt) hwfs]
  rw [eval_zeroProfile, zero_add, List.map_map]
  simp only [Function.comp_def]
  have hM := listPairs_sq (selectTrains sts indices)
  have hMq : ((listPairs (selectTrains sts indices)).length : ℚ) * 2 =
      ((selectTrains sts indices).length : ℚ) *
        (((selectTrains sts indices).length : ℚ) - 1) := by
    have hcast : ((listPairs (selectTrains sts indices)).length : ℚ) * 2 +
        ((selectTrains sts indices).length : ℚ) =
        ((selectTrains sts indices).length : ℚ) *
          ((selectTrains sts indices).length : ℚ) := by
      have h3 : ((2 * (listPairs (selectTrains sts indices)).length +
          (selectTrains sts indices).length : ℕ) : ℚ) =
          (((selectTrains sts indices).length * (selectTrains sts indices).length : ℕ) : ℚ) := by
        exact_mod_cast congrArg (fun n : ℕ => (n : ℚ)) hM
      push_cast at h3
      linarith [h3]
    ring_nf
    ring_nf at hcast
    linarith [hcast]
  have hMpos : (0:ℚ) < ((listPairs (selectTrains sts indices)).length : ℚ) := by
    exact_mod_cast listPairs_len_pos hlen
  have htwo : ∀ m : ℚ, m ≠ 0 → 2 / (m * 2) = 1 / m := by
    intro m hm
    field_simp
    ring
  rw [← hMq, htwo _ (ne_of_gt hMpos)]
  ring

theorem C3_witness :
    ∃ P, isi_profile_multi true [⟨[1, 2, 3], 0, 4⟩, ⟨[1, 3], 0, 4⟩, ⟨[2], 0, 4⟩] none =
        .ok P ∧
      P.eval 1 = 2 / (((selectTrains [⟨[1, 2, 3], 0, 4⟩, ⟨[1, 3], 0, 4⟩,
            (⟨[2], 0, 4⟩ : SpikeTrain)] none).length : ℚ) *
          (((selectTrains [⟨[1, 2, 3], 0, 4⟩, ⟨[1, 3], 0, 4⟩,
            (⟨[2], 0, 4⟩ : SpikeTrain)] none).length : ℚ) - 1)) *
        ((listPairs (selectTrains [⟨[1, 2, 3], 0, 4⟩, ⟨[1, 3], 0, 4⟩,
            (⟨[2], 0, 4⟩ : SpikeTrain)] none)).map
          (fun pr => (biProfile pr.1 pr.2).eval 1)).sum := by
  obtain ⟨P, hP, hEv⟩ := C3_profile_multi_is_pair_average true
    [⟨[1, 2, 3], 0, 4⟩, ⟨[1, 3], 0, 4⟩, ⟨[2], 0, 4⟩] none 0 4 (by decide)
    (by
      intro st hst
      rcases List.mem_cons.mp hst with rfl | hst
      · exact ⟨rfl, rfl, by constructor <;> norm_num [List.pairwise_cons]⟩
      rcases List.mem_cons.mp hst with rfl | hst
      · exact ⟨rfl, rfl, by constructor <;> norm_num [List.pairwise_cons]⟩
      rcases List.mem_cons.mp hst with rfl | hst
      · exact ⟨rfl, rfl, by constructor <;> norm_num [List.pairwise_cons]⟩
      · cases hst)
    (by norm_num)
  exact ⟨P, hP, hEv 1 (by norm_num) (by norm_num)⟩

/-- C4: dispatcher precedence for both `profile` and `distance`: exactly two
positional arguments always take the bivariate path (even when both arguments
are spike trains that could be read as a size-2 collection); exactly one
positional argument is treated as a collection for the multivariate path with
the optional index subset; more than two positional arguments are treated as
the collection itself for the multivariate path. -/
theorem C4_dispatcher_precedence :
    (∀ (avail : Bool) (a b : SpikeTrain) (kw : Kwargs),
      isi_profile avail [PyArg.train a, PyArg.train b] kw = isi_profile_bi avail a b) ∧
    (∀ (avail : Bool) (a b : SpikeTrain) (kw : Kwargs),
      isi_distance avail [PyArg.train a, PyArg.train b] kw =
        isi_distance_bi avail a b kw.interval) ∧
    (∀ (avail : Bool) (c : List SpikeTrain) (kw : Kwargs),
      isi_profile avail [PyArg.trains c] kw = isi_profile_multi avail c kw.indices) ∧
    (∀ (avail : Bool) (c : List SpikeTrain) (kw : Kwargs),
      isi_distance avail [PyArg.trains c] kw =
        isi_distance_multi avail c kw.indices kw.interval) ∧
    (∀ (avail : Bool) (x y z : PyArg) (rest : List PyArg) (kw : Kwargs),
      isi_profile avail (x :: y :: z :: rest) kw =
        isi_profile_multi avail ((x :: y :: z :: rest).map asTrain) none) ∧
    (∀ (avail : Bool) (x y z : PyArg) (rest : List PyArg) (kw : Kwargs),
      isi_distance avail (x :: y :: z :: rest) kw =
        isi_distance_multi avail ((x :: y :: z :: rest).map asTrain)
          kw.indices kw.interval) :=
  ⟨fun _ _ _ _ => rfl, fun _ _ _ _ => rfl, fun _ _ _ => rfl, fun _ _ _ => rfl,
    fun _ _ _ _ _ _ => rfl, fun _ _ _ _ _ _ => rfl⟩

/-- C10: the profile dispatcher silently discards all keyword arguments on the
two-argument path and on the more-than-two-argument path (so `indices` has no
effect there); only the single-collection shape forwards them.  The distance
dispatcher, by contrast, forwards the keyword arguments on every path. -/
theorem C10_profile_dispatcher_discards_kwargs :
    (∀ (avail : Bool) (st1 st2 : SpikeTrain) (kw : Kwargs),
      isi_profile avail [PyArg.train st1, PyArg.train st2] kw =
        isi_profile_bi avail st1 st2) ∧
    (∀ (avail : Bool) (x y z : PyArg) (rest : List PyArg) (kw kw' : Kwargs),
      isi_profile avail (x :: y :: z :: rest) kw =
        isi_profile avail (x :: y :: z :: rest) kw') ∧
    (∀ (avail : Bool) (c : List SpikeTrain) (kw : Kwargs),
      isi_profile avail [PyArg.trains c] kw = isi_profile_multi avail c kw.indices) ∧
    (∀ (avail : Bool) (a : PyArg) (kw : Kwargs),
      isi_distance avail [a] kw =
        isi_distance_multi avail (asCollection a) kw.indices kw.interval) ∧
    (∀ (avail : Bool) (a b : PyArg) (kw : Kwargs),
      isi_distance avail [a, b] kw =
        isi_distance_bi avail (asTrain a) (asTrain b) kw.interval) ∧
    (∀ (avail : Bool) (x y z : PyArg) (rest : List PyArg) (kw : Kwargs),
      isi_distance avail (x :: y :: z :: rest) kw =
        isi_distance_multi avail ((x :: y :: z :: rest).map asTrain)
          kw.indices kw.interval) :=
  ⟨fun _ _ _ _ => rfl, fun _ _ _ _ _ _ _ => rfl, fun _ _ _ => rfl,
    fun _ _ _ => rfl, fun _ _ _ _ => rfl, fun _ _ _ _ _ _ => rfl⟩

/-- C7: every empty or singleton selection (fewer than 2 selected spike
trains) passed to a multivariate operation raises `InsufficientInputError`
and returns no partial result. -/
theorem C7_insufficient_input (avail : Bool) (sts : List SpikeTrain)
    (indices : Option (List ℕ)) (interval : Option (ℚ × ℚ))
    (h : (selectTrains sts indices).length < 2) :
    isi_profile_multi avail sts indices = .error .InsufficientInputError ∧
    isi_distance_multi avail sts indices interval = .error .InsufficientInputError := by
  constructor
  · simp only [isi_profile_multi]
    rw [if_pos h]
  · simp only [isi_distance_multi]
    rw [if_pos h]

theorem C7_witness :
    isi_profile_multi true [⟨[1, 2], 0, 4⟩] none =
      .error PySpikeError.InsufficientInputError ∧
    isi_distance_multi true [⟨[1, 2], 0, 4⟩] none none =
      .error PySpikeError.InsufficientInputError :=
  C7_insufficient_input true _ none none (by decide)

/-- C6 counterexample: on the distance-only fast path (optimized backend
available, `interval = none`) the interval-compatibility check is skipped:
for A on `[0, 4]` and B on `[0, 5]`, `isi_distance_bi` returns a value
instead of raising `IncompatibleIntervalError`, refuting the claim that both
operations raise on mismatched intervals. -/
theorem C6_counterexample :
    isi_distance_bi true ⟨[1, 2, 3], 0, 4⟩ ⟨[1, 2], 0, 5⟩ none ≠
      Except.error PySpikeError.IncompatibleIntervalError :=
  fun h => Except.noConfusion h

/-- C6 amended: the bivariate profile always raises `IncompatibleIntervalError`
on mismatched intervals, before any profile computation; the bivariate
distance raises it exactly on the paths that go through the profile — an
explicit averaging interval, or the fallback backend — while the
distance-only fast path (optimized backend with `interval = none`) skips the
check. -/
theorem C6_incompatible_interval_amended :
    (∀ (avail : Bool) (st1 st2 : SpikeTrain),
      ¬(st1.t_start = st2.t_start ∧ st1.t_end = st2.t_end) →
      isi_profile_bi avail st1 st2 = .error .IncompatibleIntervalError) ∧
    (∀ (avail : Bool) (st1 st2 : SpikeTrain) (interval : Option (ℚ × ℚ)),
      ¬(st1.t_start = st2.t_start ∧ st1.t_end = st2.t_end) →
      (interval ≠ none ∨ avail = false) →
      isi_distance_bi avail st1 st2 interval = .error .IncompatibleIntervalError) := by
  constructor
  · intro avail st1 st2 h
    exact isi_profile_bi_err avail h
  · intro avail st1 st2 interval h hor
    cases interval with
    | some ab =>
      show (isi_profile_bi avail st1 st2).bind (fun p => p.avrg (some ab)) =
        .error .IncompatibleIntervalError
      rw [isi_profile_bi_err avail h]
      rfl
    | none =>
      rcases hor with hne | hfalse
      · exact absurd rfl hne
      · subst hfalse
        show (isi_profile_bi false st1 st2).bind (fun p => p.avrg none) =
          .error .IncompatibleIntervalError
        rw [isi_profile_bi_err false h]
        rfl

theorem C6_witness :
    isi_profile_bi true ⟨[1, 2, 3], 0, 4⟩ ⟨[1, 2], 0, 5⟩ =
      .error PySpikeError.IncompatibleIntervalError ∧
    isi_distance_bi false ⟨[1, 2, 3], 0, 4⟩ ⟨[1, 2], 0, 5⟩ none =
      .error PySpikeError.IncompatibleIntervalError :=
  ⟨C6_incompatible_interval_amended.1 true _ _ (fun h => absurd h.2 (by norm_num)),
    C6_incompatible_interval_amended.2 false _ _ none (fun h => absurd h.2 (by norm_num))
      (Or.inr rfl)⟩

/-- C8: substituting the portable fallback backend for the optimized one never
changes the numeric result: the two profile backends agree on every input
unconditionally, and the two distance paths agree on every valid input (a
compatible pair over a nondegenerate domain). -/
theorem C8_backends_interchangeable :
    (∀ (st1 st2 : SpikeTrain),
      isi_profile_bi true st1 st2 = isi_profile_bi false st1 st2) ∧
    (∀ (st1 st2 : SpikeTrain) (interval : Option (ℚ × ℚ)),
      st1.t_start = st2.t_start → st1.t_end = st2.t_end →
      st1.t_start < st1.t_end → st1.valid → st2.valid →
      isi_distance_bi true st1 st2 interval = isi_distance_bi false st1 st2 interval) := by
  constructor
  · intro st1 st2
    by_cases h : st1.t_start = st2.t_start ∧ st1.t_end = st2.t_end
    · rw [isi_profile_bi_ok true h.1 h.2, isi_profile_bi_ok false h.1 h.2]
    · rw [isi_profile_bi_err true h, isi_profile_bi_err false h]
  · intro st1 st2 interval hts hte hlt hv1 hv2
    cases interval with
    | none =>
      rw [isi_distance_bi_ok true hts.symm hte.symm hlt hv1 hv2 none trivial,
        isi_distance_bi_ok false hts.symm hte.symm hlt hv1 hv2 none trivial]
    | some ab =>
      show (isi_profile_bi true st1 st2).bind (fun p => p.avrg (some ab)) =
        (isi_profile_bi false st1 st2).bind (fun p => p.avrg (some ab))
      rw [isi_profile_bi_ok true hts hte, isi_profile_bi_ok false hts hte]

theorem C8_witness :
    isi_profile_bi true ⟨[1, 2, 3], 0, 4⟩ ⟨[1, 3], 0, 4⟩ =
      isi_profile_bi false ⟨[1, 2, 3], 0, 4⟩ ⟨[1, 3], 0, 4⟩ ∧
    isi_distance_bi true ⟨[1, 2, 3], 0, 4⟩ ⟨[1, 3], 0, 4⟩ none =
      isi_distance_bi false ⟨[1, 2, 3], 0, 4⟩ ⟨[1, 3], 0, 4⟩ none :=
  ⟨C8_backends_interchangeable.1 _ _,
    C8_backends_interchangeable.2 _ _ none rfl rfl (by norm_num)
      (by constructor <;> norm_num [List.pairwise_cons])
      (by constructor <;> norm_num [List.pairwise_cons])⟩

/-- C9: every profile produced by the bivariate or the multivariate operation
has nonnegative values, one fewer value than breakpoints, strictly increasing
breakpoints, and domain exactly the common `[T0, T1]` of its generating
trains. -/
theorem C9_profile_invariants :
    (∀ (avail : Bool) (st1 st2 : SpikeTrain) (ts te : ℚ),
      st1.t_start = ts → st1.t_end = te → st2.t_start = ts → st2.t_end = te →
      ts < te → st1.valid → st2.valid →
      ∃ P, isi_profile_bi avail st1 st2 = .ok P ∧
        P.x.Chain' (· < ·) ∧ P.x.head? = some ts ∧ P.x.getLast? = some te ∧
        P.x.length = P.y.length + 1 ∧ ∀ v ∈ P.y, 0 ≤ v) ∧
    (∀ (avail : Bool) (sts : List SpikeTrain) (indices : Option (List ℕ)) (ts te : ℚ),
      2 ≤ (selectTrains sts indices).length →
      (∀ st ∈ selectTrains sts indices, st.t_start = ts ∧ st.t_end = te ∧ st.valid) →
      ts < te →
      ∃ P, isi_profile_multi avail sts indices = .ok P ∧
        P.x.Chain' (· < ·) ∧ P.x.head? = some ts ∧ P.x.getLast? = some te ∧
        P.x.length = P.y.length + 1 ∧ ∀ v ∈ P.y, 0 ≤ v) := by
  constructor
  · intro avail st1 st2 ts te h1s h1e h2s h2e hlt hv1 hv2
    refine ⟨biProfile st1 st2,
      isi_profile_bi_ok avail (h1s.trans h2s.symm) (h1e.trans h2e.symm), ?_⟩
    obtain ⟨hc, hh, hl, hn⟩ := wf_biProfile h1s h1e h2s h2e hlt hv1 hv2
    exact ⟨hc, hh, hl, hn, nonneg_biProfile st1 st2⟩
  · intro avail sts indices ts te hlen hcom hlt
    refine ⟨_, isi_profile_multi_ok avail sts indices hlen hcom hlt, ?_⟩
    have hwfs : ∀ p ∈ (listPairs (selectTrains sts indices)).map
        (fun pr => biProfile pr.1 pr.2), PwcWf ts te p := by
      intro p hp
      rcases List.mem_map.mp hp with ⟨pr, hpr, rfl⟩
      have hm := listPairs_mem _ pr hpr
      have ha := hcom _ hm.1
      have hb := hcom _ hm.2
      exact wf_biProfile ha.1 ha.2.1 hb.1 hb.2.1 hlt ha.2.2 hb.2.2
    have hnn : ∀ p ∈ (listPairs (selectTrains sts indices)).map
        (fun pr => biProfile pr.1 pr.2), NonnegVals p := by
      intro p hp
      rcases List.mem_map.mp hp with ⟨pr, _, rfl⟩
      exact nonneg_biProfile pr.1 pr.2
    have hwfF := foldl_add_wf _ _ (wf_zeroProfile hlt) hwfs
    obtain ⟨hc, hh, hl, hn⟩ :=
      wf_mul_scalar (1 / ((listPairs (selectTrains sts indices)).length : ℚ)) hwfF
    refine ⟨hc, hh, hl, hn, ?_⟩
    exact nonneg_mul_scalar
      (foldl_add_nonneg _ _ (nonneg_zeroProfile ts te) hnn)
      (one_div_nonneg.mpr (Nat.cast_nonneg _))

theorem C9_witness :
    (∃ P, isi_profile_bi true ⟨[1, 2, 3], 0, 4⟩ ⟨[3/2, 5/2], 0, 4⟩ = .ok P ∧
      P.x.Chain' (· < ·) ∧ P.x.head? = some 0 ∧ P.x.getLast? = some 4 ∧
      P.x.length = P.y.length + 1 ∧ ∀ v ∈ P.y, 0 ≤ v) ∧
    (∃ P, isi_profile_multi true
        [⟨[1, 2, 3], 0, 4⟩, ⟨[1, 3], 0, 4⟩, ⟨[2], 0, 4⟩] none = .ok P ∧
      P.x.Chain' (· < ·) ∧ P.x.head? = some 0 ∧ P.x.getLast? = some 4 ∧
      P.x.length = P.y.length + 1 ∧ ∀ v ∈ P.y, 0 ≤ v) :=
  ⟨C9_profile_invariants.1 true _ _ 0 4 rfl rfl rfl rfl (by norm_num)
      (by constructor <;> norm_num [List.pairwise_cons])
      (by constructor <;> norm_num [List.pairwise_cons]),
    C9_profile_invariants.2 true [⟨[1, 2, 3], 0, 4⟩, ⟨[1, 3], 0, 4⟩, ⟨[2], 0, 4⟩]
      none 0 4 (by decide)
      (by
        intro st hst
        rcases List.mem_cons.mp hst with rfl | hst
        · exact ⟨rfl, rfl, by constructor <;> norm_num [List.pairwise_cons]⟩
        rcases List.mem_cons.mp hst with rfl | hst
        · exact ⟨rfl, rfl, by constructor <;> norm_num [List.pairwise_cons]⟩
        rcases List.mem_cons.mp hst with rfl | hst
        · exact ⟨rfl, rfl, by constructor <;> norm_num [List.pairwise_cons]⟩
        · cases hst)
      (by norm_num)⟩

/-! ### Distance-matrix support -/

theorem mem_upperPairs : ∀ (n i j : ℕ), (i, j) ∈ upperPairs n ↔ i < j ∧ j < n := by
  intro n
  induction n with
  | zero => intro i j; simp [upperPairs]
  | succ m ih =>
    intro i j
    constructor
    · intro h
      rcases List.mem_append.mp h with h1 | h2
      · have hr := (ih i j).mp h1
        omega
      · rcases List.mem_map.mp h2 with ⟨k, hk, hkij⟩
        have hk' := List.mem_range.mp hk
        obtain ⟨h3, h4⟩ := Prod.mk.injEq k m i j ▸ hkij
        omega
    · intro hij
      by_cases hjm : j < m
      · exact List.mem_append.mpr (Or.inl ((ih i j).mpr ⟨hij.1, hjm⟩))
      · have hjm' : j = m := by omega
        subst hjm'
        exact List.mem_append.mpr
          (Or.inr (List.mem_map.mpr ⟨i, List.mem_range.mpr hij.1, rfl⟩))

theorem nodup_upperPairs : ∀ n, (upperPairs n).Nodup := by
  intro n
  induction n with
  | zero => exact List.nodup_nil
  | succ m ih =>
    refine List.Nodup.append ih (List.Nodup.map ?_ (List.nodup_range m)) ?_
    · intro a b h
      exact congrArg Prod.fst h
    · intro pr h1 h2
      rcases List.mem_map.mp h2 with ⟨k, _, rfl⟩
      have hr := (mem_upperPairs m k m).mp h1
      omega

theorem upperPairs_sq : ∀ n, 2 * (upperPairs n).length + n = n * n := by
  intro n
  induction n with
  | zero => rfl
  | succ m ih =>
    show 2 * (upperPairs m ++ (List.range m).map fun i => (i, m)).length + (m + 1) = _
    rw [List.length_append, List.length_map, List.length_range]
    have hmm : (m + 1) * (m + 1) = m * m + 2 * m + 1 := by ring
    rw [hmm]
    linarith [ih]

theorem lookup_map_key {α β : Type} [BEq α] [LawfulBEq α] (g : α → β) :
    ∀ (l : List α) (k : α), k ∈ l →
      (l.map (fun x => (x, g x))).lookup k = some (g k) := by
  intro l
  induction l with
  | nil => intro k hk; cases hk
  | cons a l ih =>
    intro k hk
    show List.lookup k ((a, g a) :: l.map (fun x => (x, g x))) = some (g k)
    rcases List.mem_cons.mp hk with rfl | hk2
    · simp [List.lookup]
    · by_cases hka : k = a
      · subst hka
        simp [List.lookup]
      · have hbeq : (k == a) = false := beq_eq_false_iff_ne.mpr hka
        simp [List.lookup, hbeq, ih k hk2]

theorem getD_map_range {β : Type} (F : ℕ → β) (n i : ℕ) (h : i < n) (d : β) :
    ((List.range n).map F).getD i d = F i := by
  rw [List.getD_eq_getElem?_getD, List.getElem?_map, List.getElem?_range h]
  rfl

theorem getD_mem_of_lt {α : Type} [Inhabited α] {l : List α} {i : ℕ} (h : i < l.length) :
    l.getD i default ∈ l := by
  rw [List.getD_eq_getElem?_getD, List.getElem?_eq_getElem h]
  exact List.getElem_mem h

/-- C5: for every collection of at least 2 selected compatible spike trains,
the distance matrix is symmetric with zero diagonal, entry `(i, j)` is the
bivariate distance of the pair, and each off-diagonal unordered pair is
computed exactly once: the table backing the matrix has exactly one entry per
pair `i < j` (`M = N (N - 1) / 2` of them, duplicate-free keys), the upper
triangle is read from it and mirrored into the lower triangle. -/
theorem C5_distance_matrix_symmetric (avail : Bool) (sts : List SpikeTrain)
    (indices : Option (List ℕ)) (interval : Option (ℚ × ℚ)) (ts te : ℚ)
    (hlen : 2 ≤ (selectTrains sts indices).length)
    (hcom : ∀ st ∈ selectTrains sts indices, st.t_start = ts ∧ st.t_end = te ∧ st.valid)
    (hlt : ts < te) (hint : intervalOk ts te interval) :
    ∃ (m : List (List ℚ)) (tbl : List ((ℕ × ℕ) × ℚ)),
      isi_distance_matrix avail sts indices interval = .ok m ∧
      pairTable avail (selectTrains sts indices) interval = .ok tbl ∧
      tbl.map Prod.fst = upperPairs (selectTrains sts indices).length ∧
      (upperPairs (selectTrains sts indices).length).Nodup ∧
      2 * tbl.length = (selectTrains sts indices).length *
        ((selectTrains sts indices).length - 1) ∧
      m.length = (selectTrains sts indices).length ∧
      (∀ row ∈ m, row.length = (selectTrains sts indices).length) ∧
      ∀ i j, i < (selectTrains sts indices).length →
        j < (selectTrains sts indices).length →
        (m.getD i []).getD j 0 = (m.getD j []).getD i 0 ∧
        (m.getD i []).getD i 0 = 0 ∧
        (i < j → isi_distance_bi avail ((selectTrains sts indices).getD i default)
            ((selectTrains sts indices).getD j default) interval =
          .ok ((m.getD i []).getD j 0)) := by
  set sel := selectTrains sts indices with hsel
  set n := sel.length with hn
  set G : ℕ × ℕ → ℚ := fun ij =>
    (biProfile (sel.getD ij.1 default) (sel.getD ij.2 default)).integralOn
      (resolvedIv ts te interval).1 (resolvedIv ts te interval).2 /
    ((resolvedIv ts te interval).2 - (resolvedIv ts te interval).1) with hG
  have hok : ∀ i j, i < n → j < n →
      isi_distance_bi avail (sel.getD i default) (sel.getD j default) interval =
        .ok (G (i, j)) := by
    intro i j hi hj
    have h1 := hcom _ (getD_mem_of_lt hi)
    have h2 := hcom _ (getD_mem_of_lt hj)
    have hres := isi_distance_bi_ok avail (by rw [h1.1, h2.1]) (by rw [h1.2.1, h2.2.1])
      (by rw [h1.1, h1.2.1]; exact hlt) h1.2.2 h2.2.2 interval
      (by rw [h1.1, h1.2.1]; exact hint)
    rw [h1.1, h1.2.1] at hres
    exact hres
  have htbl : pairTable avail sel interval =
      .ok ((upperPairs n).map (fun ij => (ij, G ij))) := by
    apply exceptMap_ok
    intro ij hij
    have hb := (mem_upperPairs n ij.1 ij.2).mp hij
    rw [hok ij.1 ij.2 (lt_trans hb.1 hb.2) hb.2]
    rfl
  have hmapok : ∀ (t : List ((ℕ × ℕ) × ℚ)) (F : List ((ℕ × ℕ) × ℚ) → List (List ℚ)),
      Except.map F (Except.ok t : Except PySpikeError (List ((ℕ × ℕ) × ℚ))) =
        .ok (F t) := fun _ _ => rfl
  have hmat : isi_distance_matrix avail sts indices interval =
      .ok ((List.range n).map (fun i => (List.range n).map (fun j =>
        if i = j then 0
        else if i < j then
          ((((upperPairs n).map (fun ij => (ij, G ij))).lookup (i, j)).getD 0)
        else ((((upperPairs n).map (fun ij => (ij, G ij))).lookup (j, i)).getD 0)))) := by
    simp only [isi_distance_matrix]
    rw [if_neg (not_lt.mpr hlen), htbl, hmapok]
  have hENT : ∀ i j, i < n → j < n →
      ((((List.range n).map (fun i => (List.range n).map (fun j =>
        if i = j then 0
        else if i < j then
          ((((upperPairs n).map (fun ij => (ij, G ij))).lookup (i, j)).getD 0)
        else ((((upperPairs n).map (fun ij => (ij, G ij))).lookup (j, i)).getD 0)))).getD
          i []).getD j 0) =
        (if i = j then 0 else if i < j then G (i, j) else G (j, i)) := by
    intro i j hi hj
    rw [getD_map_range _ n i hi, getD_map_range _ n j hj]
    by_cases hij : i = j
    · rw [if_pos hij, if_pos hij]
    · rw [if_neg hij, if_neg hij]
      by_cases hlt2 : i < j
      · rw [if_pos hlt2, if_pos hlt2,
          lookup_map_key G (upperPairs n) (i, j) ((mem_upperPairs n i j).mpr ⟨hlt2, hj⟩)]
        rfl
      · have hji : j < i := by omega
        rw [if_neg hlt2, if_neg hlt2,
          lookup_map_key G (upperPairs n) (j, i) ((mem_upperPairs n j i).mpr ⟨hji, hi⟩)]
        rfl
  refine ⟨_, _, hmat, htbl, ?_, nodup_upperPairs n, ?_, ?_, ?_, ?_⟩
  · rw [List.map_map]
    have : (Prod.fst ∘ fun ij : ℕ × ℕ => (ij, G ij)) = id := by
      funext ij
      rfl
    rw [this, List.map_id]
  · rw [List.length_map]
    have h2 := upperPairs_sq n
    have h4 : n * (n - 1) + n = n * n := by
      cases n with
      | zero => rfl
      | succ m =>
        have h5 : (m + 1) - 1 = m := rfl
        rw [h5]
        ring
    generalize hq : n * n = q at h2 h4
    generalize hb : n * (n - 1) = b at h4 ⊢
    omega
  · rw [List.length_map, List.length_range]
  · intro row hrow
    rcases List.mem_map.mp hrow with ⟨i, _, rfl⟩
    rw [List.length_map, List.length_range]
  · intro i j hi hj
    refine ⟨?_, ?_, ?_⟩
    · rw [hENT i j hi hj, hENT j i hj hi]
      rcases lt_trichotomy i j with h | h | h
      · rw [if_neg (ne_of_lt h), if_pos h, if_neg (Ne.symm (ne_of_lt h)),
          if_neg (not_lt.mpr (le_of_lt h))]
      · rw [if_pos h, if_pos h.symm]
      · rw [if_neg (Ne.symm (ne_of_lt h)), if_neg (not_lt.mpr (le_of_lt h)),
          if_neg (ne_of_lt h), if_pos h]
    · rw [hENT i i hi hi, if_pos rfl]
    · intro hlt2
      rw [hENT i j hi hj, if_neg (ne_of_lt hlt2), if_pos hlt2]
      exact hok i j hi hj

theorem C5_witness :
    ∃ (m : List (List ℚ)) (tbl : List ((ℕ × ℕ) × ℚ)),
      isi_distance_matrix true [⟨[1, 2, 3], 0, 4⟩, ⟨[1, 3], 0, 4⟩, ⟨[2], 0, 4⟩]
          none none = .ok m ∧
      pairTable true (selectTrains [⟨[1, 2, 3], 0, 4⟩, ⟨[1, 3], 0, 4⟩,
          (⟨[2], 0, 4⟩ : SpikeTrain)] none) none = .ok tbl ∧
      tbl.map Prod.fst = upperPairs (selectTrains [⟨[1, 2, 3], 0, 4⟩, ⟨[1, 3], 0, 4⟩,
        (⟨[2], 0, 4⟩ : SpikeTrain)] none).length ∧
      (upperPairs (selectTrains [⟨[1, 2, 3], 0, 4⟩, ⟨[1, 3], 0, 4⟩,
        (⟨[2], 0, 4⟩ : SpikeTrain)] none).length).Nodup ∧
      2 * tbl.length = (selectTrains [⟨[1, 2, 3], 0, 4⟩, ⟨[1, 3], 0, 4⟩,
          (⟨[2], 0, 4⟩ : SpikeTrain)] none).length *
        ((selectTrains [⟨[1, 2, 3], 0, 4⟩, ⟨[1, 3], 0, 4⟩,
          (⟨[2], 0, 4⟩ : SpikeTrain)] none).length - 1) ∧
      m.length = (selectTrains [⟨[1, 2, 3], 0, 4⟩, ⟨[1, 3], 0, 4⟩,
        (⟨[2], 0, 4⟩ : SpikeTrain)] none).length ∧
      (∀ row ∈ m, row.length = (selectTrains [⟨[1, 2, 3], 0, 4⟩, ⟨[1, 3], 0, 4⟩,
        (⟨[2], 0, 4⟩ : SpikeTrain)] none).length) ∧
      ∀ i j, i < (selectTrains [⟨[1, 2, 3], 0, 4⟩, ⟨[1, 3], 0, 4⟩,
          (⟨[2], 0, 4⟩ : SpikeTrain)] none).length →
        j < (selectTrains [⟨[1, 2, 3], 0, 4⟩, ⟨[1, 3], 0, 4⟩,
          (⟨[2], 0, 4⟩ : SpikeTrain)] none).length →
        (m.getD i []).getD j 0 = (m.getD j []).getD i 0 ∧
        (m.getD i []).getD i 0 = 0 ∧
        (i < j → isi_distance_bi true
            ((selectTrains [⟨[1, 2, 3], 0, 4⟩, ⟨[1, 3], 0, 4⟩,
              (⟨[2], 0, 4⟩ : SpikeTrain)] none).getD i default)
            ((selectTrains [⟨[1, 2, 3], 0, 4⟩, ⟨[1, 3], 0, 4⟩,
              (⟨[2], 0, 4⟩ : SpikeTrain)] none).getD j default) none =
          .ok ((m.getD i []).getD j 0)) :=
  C5_distance_matrix_symmetric true [⟨[1, 2, 3], 0, 4⟩, ⟨[1, 3], 0, 4⟩, ⟨[2], 0, 4⟩]
    none none 0 4 (by decide)
    (by
      intro st hst
      rcases List.mem_cons.mp hst with rfl | hst
      · exact ⟨rfl, rfl, by constructor <;> norm_num [List.pairwise_cons]⟩
      rcases List.mem_cons.mp hst with rfl | hst
      · exact ⟨rfl, rfl, by constructor <;> norm_num [List.pairwise_cons]⟩
      rcases List.mem_cons.mp hst with rfl | hst
      · exact ⟨rfl, rfl, by constructor <;> norm_num [List.pairwise_cons]⟩
      · cases hst)
    (by norm_num) trivial
